import Mathlib

/-!
Verification of the solaris chunked log storage engine against its
specification.  The definitions below are shallow embeddings of the Go
sources: the interval compiler (pkg/ql/intervalbuilder.go), the local log
orchestrator (pkg/storage/logfs, AppendRecords / QueryRecords /
CountRecords) and the cached metadata storage (pkg/storage/cache).
ULID identifiers are modelled as natural numbers, interval domain values
as integers.
-/

namespace Solaris

namespace ql

/-- Interval over the ordered domain, mirroring intervals.Interval:
a lower border L, an upper border R and two openness flags.
The concrete domain is Int (the production string domain is another
linearly ordered instance of the same algebra). -/
structure Interval where
  L : Int
  R : Int
  LOpen : Bool
  ROpen : Bool
deriving DecidableEq, Repr

/-- Effective (closed) lower end of an interval over the integer domain. -/
def Interval.effL (i : Interval) : Int := if i.LOpen then i.L + 1 else i.L

/-- Effective (closed) upper end of an interval over the integer domain. -/
def Interval.effR (i : Interval) : Int := if i.ROpen then i.R - 1 else i.R

/-- Membership of a point in an interval (Bool-valued, executable). -/
def Interval.memB (i : Interval) (x : Int) : Bool := i.effL ≤ x && x ≤ i.effR

/-- Nonemptiness of an interval over the integer domain. -/
def Interval.nonemptyB (i : Interval) : Bool := i.effL ≤ i.effR

/-- Basis of the ordered domain: its minimum and maximum values.
Modelled from the spec: the pkg/intervals sources are not in the
repository snapshot; the spec describes the basis as providing domain
min/max, interval construction (open/closed combinations), union,
intersection and domain-complement. -/
structure Basis where
  Min : Int
  Max : Int
deriving DecidableEq, Repr

/-- Interval closed on the left and open on the right, `[l, r)`. -/
def Basis.OpenR (_ : Basis) (l r : Int) : Interval := ⟨l, r, false, true⟩

/-- Interval open on the left and closed on the right, `(l, r]`. -/
def Basis.OpenL (_ : Basis) (l r : Int) : Interval := ⟨l, r, true, false⟩

/-- Closed interval `[l, r]`. -/
def Basis.Closed (_ : Basis) (l r : Int) : Interval := ⟨l, r, false, false⟩

/-- Open interval `(l, r)`. -/
def Basis.Open (_ : Basis) (l r : Int) : Interval := ⟨l, r, true, true⟩

/-- Modelled from the spec: the domain-complement (negate) operation of
the basis.  The complement of an interval inside the domain
`[Min, Max]` consists of the piece below the lower border and the piece
above the upper border; empty pieces are dropped. -/
def Basis.Negate (b : Basis) (i : Interval) : List Interval :=
  let left : Interval := ⟨b.Min, i.L, false, !i.LOpen⟩
  let right : Interval := ⟨i.R, b.Max, !i.ROpen, false⟩
  (if left.nonemptyB then [left] else []) ++ (if right.nonemptyB then [right] else [])

/-- Comparison of lower borders: the lower border of `a` is at or before
the lower border of `b` (a closed border at a point precedes an open
border at the same point). -/
def lowerLE (a b : Interval) : Bool :=
  a.L < b.L || (a.L = b.L && (!a.LOpen || b.LOpen))

/-- Comparison of upper borders: the upper border of `a` is at or before
the upper border of `b` (an open border at a point precedes a closed
border at the same point). -/
def upperLE (a b : Interval) : Bool :=
  a.R < b.R || (a.R = b.R && (!b.ROpen || a.ROpen))

/-- Modelled from the spec: the strict sort order on intervals used by
union to sort by the lower border. -/
def Basis.StartsBefore (_ : Basis) (a b : Interval) : Bool :=
  a.L < b.L || (a.L = b.L && (!a.LOpen && b.LOpen))

/-- Convex hull of two intervals: the smaller lower border together with
the larger upper border. -/
def hull (a b : Interval) : Interval :=
  let lo := if lowerLE a b then a else b
  let hi := if upperLE a b then b else a
  ⟨lo.L, hi.R, lo.LOpen, hi.ROpen⟩

/-- Given that `x` starts at or before `y`, do the two intervals overlap
or touch (so that their union is a single interval)? -/
def touchB (x y : Interval) : Bool :=
  y.L < x.R || (y.L = x.R && (!x.ROpen || !y.LOpen))

/-- Modelled from the spec: the union operation of the basis, which
merges two intervals into one when they overlap or are adjacent and
reports failure otherwise. -/
def Basis.Union (_ : Basis) (a b : Interval) : Option Interval :=
  if lowerLE a b then
    if touchB a b then some (hull a b) else none
  else
    if touchB b a then some (hull a b) else none

/-- Modelled from the spec: the intersection operation of the basis,
which returns the common part of two intervals when it is not empty. -/
def Basis.Intersect (_ : Basis) (a b : Interval) : Option Interval :=
  let lo := if lowerLE a b then b else a
  let hi := if upperLE a b then a else b
  let t : Interval := ⟨lo.L, hi.R, lo.LOpen, hi.ROpen⟩
  if t.nonemptyB then some t else none

/-- Parameter flags of the query dialect (the PfLValue, PfRValue, PfNop,
PfComparable and PfGreaterLess bits). -/
structure PFlags where
  lvalue : Bool
  rvalue : Bool
  nop : Bool
  cmpable : Bool
  greaterLess : Bool
deriving DecidableEq, Repr

/-- Modelled from the spec: a parameter of the parsed filter expression
(the ql parser sources are not in the repository snapshot).  `pid` is
the dialect key of the parameter (`Param.ID()`), `pname` its displayed
name (`Param.Name(false)`) and `pconst` the already-parsed constant
value when the parameter is a constant (the interval domain is modelled
over the integers, so the constant is kept as an integer). -/
structure QParam where
  pid : String
  pname : String
  pconst : Option Int
deriving DecidableEq, Repr

/-- Modelled from the spec: an atomic comparison of the filter grammar,
`firstParam op secondParam`. -/
structure Condition where
  firstParam : QParam
  op : String
  secondParam : Option QParam
deriving DecidableEq, Repr

/-- Dialect entry for one parameter: its flags and the coercion of a
constant operand into the integer interval domain.  The coercion stands
for the castValueF / ValueF chain of the source; it fails (`none`) when
the constant cannot be converted to the target value type. -/
structure DialectParam where
  flags : PFlags
  value : QParam → Option Int

/-- Dialect: a finite assignment of dialect entries to parameter IDs. -/
def Dialect := String → Option DialectParam

mutual

/-- Filter expression tree: OR of AND of possibly negated atomic
comparisons or parenthesised subexpressions, mirroring the ql AST. -/
inductive Expression where
  | mk : List OrCondition → Expression

/-- One OR branch of a filter expression: a conjunction of conditions. -/
inductive OrCondition where
  | mk : List XCondition → OrCondition

/-- One conjunct: a possibly negated atomic comparison or a possibly
negated parenthesised subexpression. -/
inductive XCondition where
  | cond : Bool → Condition → XCondition
  | sub : Bool → Expression → XCondition

end

/-- ParamIntervalBuilder: basis, dialect, target parameter and the set of
accepted comparison operators. -/
structure ParamIntervalBuilder where
  basis : Basis
  dialect : Dialect
  param : String
  ops : List String

/-- Mapping of one accepted atomic comparison on the target parameter
with constant value `val` to intervals
(ParamIntervalBuilder.getIntervals). -/
def getIntervals (b : Basis) (op : String) (val : Int) : List Interval :=
  if op = "<" then [b.OpenR b.Min val]
  else if op = ">" then [b.OpenL val b.Max]
  else if op = "<=" then [b.Closed b.Min val]
  else if op = ">=" then [b.Closed val b.Max]
  else if op = "=" then [b.Closed val val]
  else if op = "!=" then b.Negate (b.Closed val val)
  else []

/-- Compilation of one atomic comparison
(ParamIntervalBuilder.buildCond).  An `Except.error` is the validation
error path; `Except.ok []` is the silent-skip path. -/
def buildCond (ib : ParamIntervalBuilder) (c : Condition) : Except String (List Interval) := do
  let p1 := c.firstParam
  let some dp1 := ib.dialect p1.pid
    | throw "the parameter must be known"
  if !dp1.flags.lvalue then
    throw "the parameter must be on the left side of the condition"
  else if dp1.flags.nop then
    throw "the parameter must allow operation"
  else if p1.pname ≠ ib.param then
    pure []  -- skip: not the param we look for
  else
    let some p2 := c.secondParam
      | throw "the second parameter must be specified"
    let some dp2 := ib.dialect p2.pid
      | throw "the second parameter must be known"
    if !dp2.flags.rvalue then
      throw "the second parameter must be on the right side of the condition"
    else if dp2.flags.nop then
      throw "the second parameter must allow operation"
    else if p2.pconst.isNone then
      pure []  -- skip: not a constant param
    else if !(ib.ops.contains c.op) then
      pure []  -- skip: not the ops we look for
    else do
      if c.op = "<" ∨ c.op = ">" then
        if !dp1.flags.cmpable && !dp1.flags.greaterLess then
          throw "the first parameter must be comparable for the operation"
        if !dp2.flags.cmpable && !dp2.flags.greaterLess then
          throw "the second parameter must be comparable for the operation"
      else if c.op = "<=" ∨ c.op = ">=" ∨ c.op = "=" ∨ c.op = "!=" then
        if !dp1.flags.cmpable then
          throw "the first parameter must be comparable for the operation"
        if !dp2.flags.cmpable then
          throw "the second parameter must be comparable for the operation"
      let some tVal := dp2.value p2
        | throw "cannot cast the second parameter value to interval point"
      pure (getIntervals ib.basis c.op tVal)

/-- Insertion of an interval into a list sorted by `lowerLE`. -/
def insertI (x : Interval) : List Interval → List Interval
  | [] => [x]
  | y :: ys => if lowerLE x y then x :: y :: ys else y :: insertI x ys

/-- Sorting by the lower border (the sort.Slice call of
ParamIntervalBuilder.union, with Basis.StartsBefore as the strict
order; insertion sort by the matching non-strict order `lowerLE`). -/
def sortI (l : List Interval) : List Interval := l.foldr insertI []

/-- Merge pass of ParamIntervalBuilder.union: fold over the sorted
list, merging the running interval with the next one whenever the basis
union succeeds and emitting it otherwise. -/
def mergeRun (b : Basis) (prev : Interval) : List Interval → List Interval
  | [] => [prev]
  | c :: cs =>
    match b.Union prev c with
    | some u => mergeRun b u cs
    | none => prev :: mergeRun b c cs

/-- ParamIntervalBuilder.union: sort the intervals by the lower border,
then merge overlapping or adjacent neighbours. -/
def unionI (b : Basis) (l : List Interval) : List Interval :=
  match sortI l with
  | [] => []
  | x :: xs => mergeRun b x xs

/-- Cross-product intersection of two interval groups, dropping empty
results (inner loops of ParamIntervalBuilder.intersect). -/
def intersectPair (b : Basis) (xs ys : List Interval) : List Interval :=
  xs.flatMap fun x => ys.filterMap fun y => b.Intersect x y

/-- ParamIntervalBuilder.intersect: pairwise cross-product intersection
across all conjunct groups. -/
def intersectGroups (b : Basis) : List (List Interval) → List Interval
  | [] => []
  | g :: gs => gs.foldl (intersectPair b) g

/-- Negation of a built interval set via the basis complement
(the NOT branch of ParamIntervalBuilder.buildXCond). -/
def negateAll (b : Basis) (l : List Interval) : List Interval :=
  l.flatMap fun t => b.Negate t

mutual

/-- ParamIntervalBuilder.Build: evaluate every OR branch, concatenate
the interval sets and take their union. -/
def buildExpr (ib : ParamIntervalBuilder) : Expression → Except String (List Interval)
  | .mk ors => do
    let res ← buildOrList ib ors
    pure (unionI ib.basis res)

/-- Accumulation of the interval sets of the OR branches
(the loop of ParamIntervalBuilder.Build). -/
def buildOrList (ib : ParamIntervalBuilder) : List OrCondition → Except String (List Interval)
  | [] => pure []
  | o :: os => do
    let tt ← buildOR ib o
    let rest ← buildOrList ib os
    pure (tt ++ rest)

/-- ParamIntervalBuilder.buildOR: build every conjunct group and
intersect the groups. -/
def buildOR (ib : ParamIntervalBuilder) : OrCondition → Except String (List Interval)
  | .mk ands => do
    let groups ← buildAndList ib ands
    pure (intersectGroups ib.basis groups)

/-- Accumulation of the nonempty conjunct groups
(the loop of ParamIntervalBuilder.buildOR). -/
def buildAndList (ib : ParamIntervalBuilder) : List XCondition → Except String (List (List Interval))
  | [] => pure []
  | a :: as => do
    let g ← buildXCond ib a
    let rest ← buildAndList ib as
    pure (if g.isEmpty then rest else g :: rest)

/-- ParamIntervalBuilder.buildXCond: build an atomic comparison or a
subexpression and negate the result when the conjunct carries NOT. -/
def buildXCond (ib : ParamIntervalBuilder) : XCondition → Except String (List Interval)
  | .cond neg c => do
    let res ← buildCond ib c
    if !neg then pure res else pure (negateAll ib.basis res)
  | .sub neg e => do
    let res ← buildExpr ib e
    if !neg then pure res else pure (negateAll ib.basis res)

end

/-- Build entry point, as called by the query layer. -/
def Build (ib : ParamIntervalBuilder) (e : Expression) : Except String (List Interval) :=
  buildExpr ib e

/-- Wrapping of a single atomic comparison into a whole filter
expression. -/
def exprOfCond (c : Condition) : Expression :=
  Expression.mk [OrCondition.mk [XCondition.cond false c]]

/-- Sortedness of an interval list by ascending lower border. -/
def ISortedLB (l : List Interval) : Prop :=
  l.Pairwise fun a b => lowerLE a b = true

/-- Minimality of an interval list: no two neighbouring intervals can
be united by the basis into a single interval (they neither overlap nor
are adjacent). -/
def IMergedMinimal (b : Basis) (l : List Interval) : Prop :=
  l.Chain' fun x y => b.Union x y = none

/-- Pairwise disjointness of the intervals of a list, as sets of domain
points. -/
def IDisjoint (l : List Interval) : Prop :=
  l.Pairwise fun a b => ∀ x : Int, ¬(a.memB x = true ∧ b.memB x = true)

/-- Every member of `x` lies strictly below every member of `y`
(border-level comparison). -/
def borderBelowB (x y : Interval) : Bool :=
  x.R < y.L || (x.R = y.L && (x.ROpen || y.LOpen))

/-- Test basis over the integer domain 0..100 (fixture for witnesses). -/
def testBasis : Basis := ⟨0, 100⟩

/-- Dialect fixture mirroring the intervalbuilder test dialect: the
target parameter "t", a second left-side parameter "u" and the constant
pseudo-parameter "const" whose value coerces the constant text to an
integer. -/
def testDialect : Dialect := fun pid =>
  if pid = "t" then some ⟨⟨true, false, false, true, false⟩, fun _ => none⟩
  else if pid = "u" then some ⟨⟨true, false, false, true, false⟩, fun _ => none⟩
  else if pid = "const" then
    some ⟨⟨false, true, false, true, false⟩, fun p => p.pconst⟩
  else none

/-- Builder fixture accepting all six comparison operators. -/
def testBuilder : ParamIntervalBuilder :=
  ⟨testBasis, testDialect, "t", ["<", ">", "<=", ">=", "=", "!="]⟩

/-- Builder fixture accepting only the `<` and `>` operators (the
OpsGtLt configuration). -/
def testBuilderGL : ParamIntervalBuilder :=
  ⟨testBasis, testDialect, "t", ["<", ">"]⟩

/-- Condition fixture: `t op v` for an integer constant `v`. -/
def tCmp (op : String) (v : Int) : Condition :=
  ⟨⟨"t", "t", none⟩, op, some ⟨"const", toString v, some v⟩⟩

/-- Condition fixture: `u op v` (a known non-target parameter on the
left). -/
def uCmp (op : String) (v : Int) : Condition :=
  ⟨⟨"u", "u", none⟩, op, some ⟨"const", toString v, some v⟩⟩

/-- Condition fixture: `a op v` for a parameter unknown to the
dialect. -/
def aCmp (op : String) (v : Int) : Condition :=
  ⟨⟨"a", "a", none⟩, op, some ⟨"const", toString v, some v⟩⟩

end ql

namespace logfs

/-- Error taxonomy of golibs/errors, restricted to the codes the claims
need; `generic` stands for any other (for instance I/O) error. -/
inductive Err where
  | notExist
  | invalid
  | closed
  | generic (code : Nat)
deriving DecidableEq, Repr

/-- Record: ULID modelled as a natural number plus the payload size in
bytes (payload content is irrelevant to the verified properties). -/
structure Rec where
  rid : Nat
  psize : Nat
deriving DecidableEq, Repr

/-- ChunkInfo: chunk descriptor kept in the catalog (chunk ID, first and
last record ID, number of records).  IDs are modelled as naturals. -/
structure ChunkInfo where
  cid : Nat
  cmin : Nat
  cmax : Nat
  recordsCount : Nat
deriving DecidableEq, Repr

/-- Result of the chunk codec append call
(chunkfs.AppendRecordsResult): how many records were written and the
first/last written record IDs. -/
structure AppendRecordsResult where
  written : Nat
  startID : Nat
  lastID : Nat
deriving DecidableEq, Repr

/-- Modelled from the spec: the chunk codec append operation (the
chunkfs sources are not in the repository snapshot).  Given the chunk
ID, the new-file flag and the remaining records it reports how many
records fit or an error.  Kept abstract: the orchestrator claims hold
for every codec behaviour. -/
def Codec := Nat → Bool → List Rec → Except Err AppendRecordsResult

/-- Update of the current chunk descriptor after a successful write of
`arr.written` records (localLog.AppendRecords, lines updating Min, Max
and RecordsCount). -/
def applyWrite (ci : ChunkInfo) (arr : AppendRecordsResult) : ChunkInfo :=
  { ci with
    cmin := if ci.recordsCount = 0 then arr.startID else ci.cmin,
    cmax := arr.lastID,
    recordsCount := ci.recordsCount + arr.written }

/-- State returned by the append loop: the current chunk descriptor,
the accumulated descriptors of written chunks, the number of records
added, the pending error, the mint counter and the ghost trace of the
written counts reported by the successful codec calls. -/
structure ALoopOut where
  ci : ChunkInfo
  cis : List ChunkInfo
  added : Nat
  gerr : Option Err
  cnt : Nat
  trace : List Nat
deriving DecidableEq, Repr

/-- The main loop of localLog.AppendRecords: while unwritten records
remain, mint a new chunk when the current one is full or absent, ask
the codec to write as many records as fit, accumulate the updated
descriptor, and stop on an error or when a freshly created chunk
accepts zero records (fatal sizing error). -/
def appendLoop (codec : Codec) (mint : Nat → Nat) (ci : ChunkInfo) (recs : List Rec)
    (cis : List ChunkInfo) (added : Nat) (cnt : Nat) (trace : List Nat) : ALoopOut :=
  if hres : recs.isEmpty then ⟨ci, cis, added, none, cnt, trace⟩
  else if hfresh : ci.recordsCount = 0 then
    -- the current chunk is absent or full: mint a new chunk ID
    let ci2 : ChunkInfo := ⟨mint cnt, 0, 0, 0⟩
    match codec ci2.cid true recs with
    | .error e => ⟨ci2, cis, added, some e, cnt + 1, trace⟩
    | .ok arr =>
      if 0 < arr.written then
        let ci3 := applyWrite ci2 arr
        appendLoop codec mint { ci3 with recordsCount := 0 } (recs.drop arr.written)
          (cis ++ [ci3]) (added + arr.written) (cnt + 1) (trace ++ [arr.written])
      else
        -- the chunk was just created and its capacity is not enough
        -- to write at least one record
        ⟨ci2, cis, added, some .invalid, cnt + 1, trace ++ [arr.written]⟩
  else
    match codec ci.cid false recs with
    | .error e => ⟨ci, cis, added, some e, cnt, trace⟩
    | .ok arr =>
      if 0 < arr.written then
        let ci3 := applyWrite ci arr
        appendLoop codec mint { ci3 with recordsCount := 0 } (recs.drop arr.written)
          (cis ++ [ci3]) (added + arr.written) cnt (trace ++ [arr.written])
      else
        -- nothing was written into the tail chunk: retry with a fresh chunk
        appendLoop codec mint { ci with recordsCount := 0 } recs cis added cnt
          (trace ++ [arr.written])
termination_by 2 * recs.length + (if ci.recordsCount = 0 then 0 else 1)
decreasing_by
  · have hl : 0 < recs.length := by
      cases recs with
      | nil => simp at hres
      | cons a t => simp
    simp only [List.length_drop, if_true, if_false, ite_true, ite_false]
    omega
  · have hl : 0 < recs.length := by
      cases recs with
      | nil => simp at hres
      | cons a t => simp
    simp only [List.length_drop, if_true, if_false, ite_true, ite_false]
    omega
  · simp only [if_true, if_false, ite_true, ite_false, hfresh]
    omega

/-- Outcome of an AppendRecords call: either the fatal panic taken when
the catalog update fails after data was written, or a normal return
with the added count and the error value. -/
inductive AOut where
  | panic
  | res (added : Nat) (err : Option Err)
deriving DecidableEq, Repr

/-- Full observable outcome of localLog.AppendRecords: the returned
result, the descriptors persisted to the catalog, the final chunk
descriptor, whether DeleteFileIfEmpty was invoked for it, the ghost
trace of written counts and the ghost copy of the pending loop error
before suppression. -/
structure AppendOut where
  out : AOut
  cis : List ChunkInfo
  finalCi : ChunkInfo
  delEmpty : Bool
  trace : List Nat
  loopErr : Option Err
deriving DecidableEq, Repr

/-- localLog.AppendRecords: fetch the last chunk from the catalog
(`lastChunk`), run the append loop, delete a trailing empty chunk, and
if anything was written persist the descriptors (`upsertOK` tells
whether the catalog upsert succeeds; its failure is the fatal panic)
and suppress a pending loop error. -/
def AppendRecords (codec : Codec) (mint : Nat → Nat) (lastChunk : Except Err ChunkInfo)
    (upsertOK : Bool) (recs : List Rec) : AppendOut :=
  match lastChunk with
  | .error e =>
    if e = .notExist then
      appendFinish (appendLoop codec mint ⟨0, 0, 0, 0⟩ recs [] 0 0 []) upsertOK
    else
      ⟨.res 0 (some e), [], ⟨0, 0, 0, 0⟩, false, [], some e⟩
  | .ok ci => appendFinish (appendLoop codec mint ci recs [] 0 0 []) upsertOK
where
  appendFinish (r : ALoopOut) (upsertOK : Bool) : AppendOut :=
    let delEmpty := r.ci.recordsCount = 0
    if 0 < r.added then
      if upsertOK then ⟨.res r.added none, r.cis, r.ci, delEmpty, r.trace, r.gerr⟩
      else ⟨.panic, r.cis, r.ci, delEmpty, r.trace, r.gerr⟩
    else ⟨.res r.added r.gerr, r.cis, r.ci, delEmpty, r.trace, r.gerr⟩

/-- One chunk of a log together with its stored records, for the read
side (records sorted ascending by ID in the physical chunk). -/
structure Chunk where
  info : ChunkInfo
  recs : List Rec
deriving DecidableEq, Repr

/-- Default (zero) chunk value. -/
def defaultChunk : Chunk := ⟨⟨0, 0, 0, 0⟩, []⟩

/-- Configuration of the local log (logfs.Config): the maximum records
per query result and the maximum cumulative payload size. -/
structure Config where
  maxRecordsLimit : Nat
  maxBunchSize : Nat
deriving DecidableEq, Repr

/-- Modelled from the spec: the chunk codec read cursor yields the
chunk records in ID order, reversed for a descending reader. -/
def chunkSeq (c : Chunk) (descending : Bool) : List Rec :=
  if descending then c.recs.reverse else c.recs

/-- Modelled from the spec: SetStartID positions the cursor at the
first record at or after (ascending), or at or before (descending),
the start ID. -/
def applyStart (descending : Bool) (sid : Option Nat) (l : List Rec) : List Rec :=
  match sid with
  | none => l
  | some s =>
    if descending then l.dropWhile (fun r => s < r.rid)
    else l.dropWhile (fun r => r.rid < s)

/-- The read loop of localLog.readRecords: take records while the
cursor has more, the remaining record quota is positive and the
cumulative payload size is below the bunch budget; returns the records
taken and the updated cumulative size. -/
def takeRecs (maxBunch : Nat) : Nat → List Rec → Nat → (List Rec × Nat)
  | _, [], ts => ([], ts)
  | limit, r :: rs, ts =>
    if 0 < limit ∧ ts < maxBunch then
      let rest := takeRecs maxBunch (limit - 1) rs (ts + r.psize)
      (r :: rest.1, rest.2)
    else ([], ts)

/-- localLog.readRecords for one chunk: open a directional reader,
apply the start constraint when given, and run the read loop. -/
def readRecords (cfg : Config) (c : Chunk) (descending : Bool) (sid : Option Nat)
    (limit : Nat) (totalSize : Nat) : (List Rec × Nat) :=
  takeRecs cfg.maxBunchSize limit (applyStart descending sid (chunkSeq c descending)) totalSize

/-- The chunk iteration loop of localLog.QueryRecords: walk the chunk
list from `idx` in the chosen direction while the index is in range and
the record limit is not reached, reading each chunk and applying the
start ID only to the first chunk touched. -/
def qLoop (cfg : Config) (chunks : List Chunk) (descending : Bool) (limit : Nat)
    (idx : Int) (sid : Option Nat) (totalSize : Nat) (res : List Rec) : (List Rec × Nat) :=
  if h : 0 ≤ idx ∧ idx < chunks.length ∧ res.length < limit then
    let c := chunks.getD idx.toNat defaultChunk
    let step := readRecords cfg c descending sid (limit - res.length) totalSize
    qLoop cfg chunks descending limit (idx + (if descending then -1 else 1)) none
      step.2 (res ++ step.1)
  else (res, totalSize)
termination_by ((if descending then idx + 1 else (chunks.length : Int) - idx)).toNat
decreasing_by
  rcases h with ⟨h0, h1, _⟩
  cases descending <;> simp_all <;> omega

/-- localLog.QueryRecords: locate the starting chunk (binary search on
the ordered descriptor list), iterate chunks in the requested
direction accumulating records, and return them together with the
`more` flag, which is set when the record count reached the effective
limit or the cumulative payload size reached the bunch budget. -/
def QueryRecords (cfg : Config) (chunks : List Chunk) (startID : Option Nat)
    (descending : Bool) (limit0 : Nat) : (List Rec × Bool) :=
  if chunks.isEmpty then ([], false)
  else
    let idx : Int :=
      match startID with
      | none => if descending then (chunks.length : Int) - 1 else 0
      | some sid =>
        if descending then (List.findIdx (fun c => sid < c.info.cmin) chunks : Int) - 1
        else (List.findIdx (fun c => sid ≤ c.info.cmax) chunks : Int)
    let limit := min limit0 cfg.maxRecordsLimit
    let out := qLoop cfg chunks descending limit idx startID 0 []
    (out.1, decide (limit ≤ out.1.length ∨ cfg.maxBunchSize ≤ out.2))

/-- Sum of the catalog record counts of a chunk list. -/
def sumCounts (l : List Chunk) : Nat := (l.map (fun c => c.info.recordsCount)).sum

/-- The exact boundary-chunk scan oracle: either the concrete
directional scan count or an injected failure. -/
def CountScan := Chunk → Bool → Nat → Except Err Nat

/-- Modelled from the spec: localLog.countRecords counts the records of
one chunk on/after (ascending) or on/before (descending) the start ID
by scanning the chunk through a directional reader. -/
def scanChunk : CountScan := fun c descending sid =>
  .ok (applyStart descending (some sid) (chunkSeq c descending)).length

/-- A scan oracle that always fails (stands for an I/O error while
opening or reading the boundary chunk). -/
def scanFail : CountScan := fun _ _ _ => .error (.generic 0)

/-- localLog.CountRecords: fetch the chunk list; with no start ID the
whole catalog counts are summed; with a start ID locate the boundary
chunk, scan it exactly (on a scan failure `(0, 0)` is returned with no
error), add the skipped chunks to the total only, and add the
remaining chunks in scan direction to both count and total. -/
def CountRecords (scan : CountScan) (chunks : List Chunk) (startID : Option Nat)
    (descending : Bool) : Except Err (Nat × Nat) :=
  if chunks.isEmpty then .ok (0, 0)
  else
    match startID with
    | none => .ok (sumCounts chunks, sumCounts chunks)
    | some sid =>
      let idx : Int :=
        if descending then (List.findIdx (fun c => sid < c.info.cmin) chunks : Int) - 1
        else (List.findIdx (fun c => sid ≤ c.info.cmax) chunks : Int)
      if 0 ≤ idx ∧ idx < chunks.length then
        let bc := chunks.getD idx.toNat defaultChunk
        match scan bc descending sid with
        | .error _ => .ok (0, 0)
        | .ok numRecs =>
          let skipped := if descending then sumCounts (chunks.drop (idx.toNat + 1))
                         else sumCounts (chunks.take idx.toNat)
          let rest := if descending then sumCounts (chunks.take idx.toNat)
                      else sumCounts (chunks.drop (idx.toNat + 1))
          .ok (bc.info.recordsCount + skipped + rest, numRecs + rest)
      else .ok (0, 0)

/-- Sortedness of a record list by strictly ascending record ID. -/
def recsSortedB : List Rec → Bool
  | [] => true
  | [_] => true
  | a :: b :: t => a.rid < b.rid && recsSortedB (b :: t)

/-- Well-formedness of one chunk: records present, sorted by ID, and
the descriptor fields Min/Max/RecordsCount match the stored records. -/
def chunkWFb (c : Chunk) : Bool :=
  !c.recs.isEmpty && recsSortedB c.recs &&
  (c.info.cmin = (c.recs.headD ⟨0, 0⟩).rid) &&
  (c.info.cmax = (c.recs.getLastD ⟨0, 0⟩).rid) &&
  (c.info.recordsCount = c.recs.length)

/-- Ordering of the chunk sequence of a log: disjoint contiguous ID
ranges, every chunk entirely below the next one. -/
def chunksOrderedB : List Chunk → Bool
  | [] => true
  | [_] => true
  | a :: b :: t => a.info.cmax < b.info.cmin && chunksOrderedB (b :: t)

/-- Well-formedness of a whole log: every chunk well-formed and the
chunk ranges ordered and disjoint. -/
def logWFb (chunks : List Chunk) : Bool :=
  chunks.all chunkWFb && chunksOrderedB chunks

/-- The multiset of records of a log. -/
def allRecs (chunks : List Chunk) : List Rec := chunks.flatMap (fun c => c.recs)

/-- Cumulative payload size of a record list. -/
def sizeSum (l : List Rec) : Nat := (l.map (fun r => r.psize)).sum

/-- Codec fixture: the first minted chunk (ID 0) accepts exactly one
record, every later chunk accepts none (its capacity is below the
record size). -/
def cexCodec : Codec := fun cid _ _ =>
  if cid = 0 then .ok ⟨1, 100, 100⟩ else .ok ⟨0, 0, 0⟩

/-- Query configuration fixture. -/
def qcfg : Config := ⟨10, 1000⟩

/-- Log fixture with a single chunk holding a single record. -/
def qlog1 : List Chunk := [⟨⟨1, 1, 1, 1⟩, [⟨1, 10⟩]⟩]

/-- Log fixture with two chunks of three records each. -/
def qlog2 : List Chunk :=
  [⟨⟨1, 1, 3, 3⟩, [⟨1, 10⟩, ⟨2, 10⟩, ⟨3, 10⟩]⟩,
   ⟨⟨2, 5, 7, 3⟩, [⟨5, 10⟩, ⟨6, 10⟩, ⟨7, 10⟩]⟩]

end logfs

namespace cache

open logfs

/-- Insertion into a chunk-descriptor list sorted by ascending chunk
ID. -/
def insertByID (x : ChunkInfo) : List ChunkInfo → List ChunkInfo
  | [] => [x]
  | y :: ys => if x.cid ≤ y.cid then x :: y :: ys else y :: insertByID x ys

/-- The sort.Slice call of the CachedStorage chunks-cache loader:
chunk descriptors sorted by ascending chunk ID. -/
def sortByID (l : List ChunkInfo) : List ChunkInfo := l.foldr insertByID []

/-- CachedStorage.GetLastChunk: load the (sorted) chunk list of the
log; an empty list yields the zero ChunkInfo with no error, otherwise
the last element of the sorted list is returned.  `loadChunks` stands
for the underlying storage.GetChunks call made by the cache loader. -/
def GetLastChunk (loadChunks : Except Err (List ChunkInfo)) : Except Err ChunkInfo :=
  match loadChunks with
  | .error e => .error e
  | .ok cis0 =>
    let cis := sortByID cis0
    if cis.isEmpty then .ok ⟨0, 0, 0, 0⟩
    else .ok (cis.getLastD ⟨0, 0, 0, 0⟩)

end cache

end Solaris

namespace Solaris

/-- Helper: the default value of getLastD is irrelevant for a nonempty
list. -/
theorem getLastD_congr {α : Type} (l : List α) (d1 d2 : α) (h : l ≠ []) :
    l.getLastD d1 = l.getLastD d2 := by
  induction l generalizing d1 d2 with
  | nil => exact absurd rfl h
  | cons y ys ih =>
    cases ys with
    | nil => rfl
    | cons z zs => simp only [List.getLastD_cons]

/-- Helper: getLastD of a nonempty list is a member. -/
theorem getLastD_mem {α : Type} (l : List α) (d : α) (h : l ≠ []) :
    l.getLastD d ∈ l := by
  induction l generalizing d with
  | nil => exact absurd rfl h
  | cons y ys ih =>
    cases hys : ys with
    | nil => simp [List.getLastD_cons]
    | cons z zs =>
      rw [List.getLastD_cons]
      right
      rw [← hys]
      exact ih _ (by simp [hys])

namespace ql

/-- C3 (counterexample): the claim maps `<` with value `v` to the open
interval `(min, v)`; the compiler actually produces the right-open
interval `[min, v)`, whose left border is closed: at `v = 5` over the
domain `[0, 100]` the produced interval contains the domain minimum 0,
which the claimed open interval excludes. -/
theorem C3_counterexample :
    getIntervals ⟨0, 100⟩ "<" 5 = [⟨0, 5, false, true⟩] ∧
    Interval.memB ⟨0, 5, false, true⟩ 0 = true ∧
    Interval.memB ⟨0, 5, true, true⟩ 0 = false := by
  decide

/-- C3 (amended): for an accepted atomic comparison on the target
parameter with constant value `v`, getIntervals produces exactly: for
`<` the right-open interval `[min, v)`; for `>` the left-open interval
`(v, max]`; for `<=` the closed `[min, v]`; for `>=` the closed
`[v, max]`; for `=` the point interval `[v, v]`; and for `!=` the
domain-complement of `[v, v]`, which for `min < v < max` is the pair
`[min, v)`, `(v, max]`. -/
theorem C3_amended (b : Basis) (v : Int) (h1 : b.Min < v) (h2 : v < b.Max) :
    getIntervals b "<" v = [⟨b.Min, v, false, true⟩] ∧
    getIntervals b ">" v = [⟨v, b.Max, true, false⟩] ∧
    getIntervals b "<=" v = [⟨b.Min, v, false, false⟩] ∧
    getIntervals b ">=" v = [⟨v, b.Max, false, false⟩] ∧
    getIntervals b "=" v = [⟨v, v, false, false⟩] ∧
    getIntervals b "!=" v = [⟨b.Min, v, false, true⟩, ⟨v, b.Max, true, false⟩] := by
  have hl : (⟨b.Min, v, false, true⟩ : Interval).nonemptyB = true := by
    simp [Interval.nonemptyB, Interval.effL, Interval.effR]
    omega
  have hr : (⟨v, b.Max, true, false⟩ : Interval).nonemptyB = true := by
    simp [Interval.nonemptyB, Interval.effL, Interval.effR]
    omega
  refine ⟨rfl, rfl, rfl, rfl, rfl, ?_⟩
  simp [getIntervals, Basis.Negate, Basis.Closed, hl, hr]

/-- C3 (amended, witness): the amended mapping evaluated at the domain
`[0, 100]` and `v = 5` for the `!=` case. -/
theorem C3_amended_witness :
    getIntervals ⟨0, 100⟩ "!=" 5 = [⟨0, 5, false, true⟩, ⟨5, 100, true, false⟩] :=
  (C3_amended ⟨0, 100⟩ 5 (by decide) (by decide)).2.2.2.2.2

/-- Helper: Build of a single-comparison expression reduces to
buildCond followed by the (here trivial) intersection and union
passes. -/
theorem build_exprOfCond (ib : ParamIntervalBuilder) (c : Condition) :
    Build ib (exprOfCond c) =
      match buildCond ib c with
      | .error e => .error e
      | .ok l =>
        .ok (unionI ib.basis (intersectGroups ib.basis (if l.isEmpty then [] else [l]))) := by
  cases h : buildCond ib c with
  | error e =>
    simp [Build, exprOfCond, buildExpr, buildOrList, buildOR, buildAndList, buildXCond, h,
      bind, Except.bind, pure, Except.pure]
  | ok l =>
    simp [Build, exprOfCond, buildExpr, buildOrList, buildOR, buildAndList, buildXCond, h,
      bind, Except.bind, pure, Except.pure]

/-- C4 (counterexample): a comparison whose operator is outside the
accepted set of the build (here `=` against the OpsGtLt configuration)
does not make Build fail with a validation error: it is silently
skipped and Build succeeds with no intervals. -/
theorem C4_counterexample :
    Build testBuilderGL (exprOfCond (tCmp "=" 7)) = .ok [] := rfl

/-- C4 (amended): an unknown left parameter, a left parameter not
allowed on the left side, and a right-hand constant that cannot be
coerced into the target value type fail with a validation error; a
comparison whose (known, left-positioned, operable) left parameter is
a different parameter than the target, or whose operator is outside
the accepted set of the build, is silently skipped, contributing no
intervals and no error. -/
theorem C4_amended (ib : ParamIntervalBuilder) (c : Condition) :
    (ib.dialect c.firstParam.pid = none →
      Build ib (exprOfCond c) = .error "the parameter must be known") ∧
    (∀ dp1, ib.dialect c.firstParam.pid = some dp1 → dp1.flags.lvalue = false →
      Build ib (exprOfCond c) = .error "the parameter must be on the left side of the condition") ∧
    (∀ dp1, ib.dialect c.firstParam.pid = some dp1 → dp1.flags.lvalue = true →
      dp1.flags.nop = false → c.firstParam.pname ≠ ib.param →
      Build ib (exprOfCond c) = .ok []) ∧
    (∀ dp1 p2 dp2, ib.dialect c.firstParam.pid = some dp1 → dp1.flags.lvalue = true →
      dp1.flags.nop = false → c.firstParam.pname = ib.param →
      c.secondParam = some p2 → ib.dialect p2.pid = some dp2 →
      dp2.flags.rvalue = true → dp2.flags.nop = false → p2.pconst.isSome = true →
      ib.ops.contains c.op = false →
      Build ib (exprOfCond c) = .ok []) ∧
    (∀ dp1 p2 dp2, ib.dialect c.firstParam.pid = some dp1 → dp1.flags.lvalue = true →
      dp1.flags.nop = false → c.firstParam.pname = ib.param →
      c.secondParam = some p2 → ib.dialect p2.pid = some dp2 →
      dp2.flags.rvalue = true → dp2.flags.nop = false → p2.pconst.isSome = true →
      ib.ops.contains c.op = true →
      dp1.flags.cmpable = true → dp2.flags.cmpable = true →
      dp2.value p2 = none →
      Build ib (exprOfCond c) = .error "cannot cast the second parameter value to interval point") := by
  refine ⟨?_, ?_, ?_, ?_, ?_⟩
  · intro h
    have hbc : buildCond ib c = .error "the parameter must be known" := by
      simp [buildCond, h]; rfl
    rw [build_exprOfCond, hbc]
  · intro dp1 h1 h2
    have hbc : buildCond ib c =
        .error "the parameter must be on the left side of the condition" := by
      simp [buildCond, h1, h2]; rfl
    rw [build_exprOfCond, hbc]
  · intro dp1 h1 h2 h3 h4
    have hbc : buildCond ib c = .ok [] := by
      simp [buildCond, h1, h2, h3, h4, pure, Except.pure]
    rw [build_exprOfCond, hbc]
    rfl
  · intro dp1 p2 dp2 h1 h2 h3 h4 h5 h6 h7 h8 h9 h10
    have h10' : c.op ∉ ib.ops := by simpa using h10
    cases hp : p2.pconst with
    | none => rw [hp] at h9; cases h9
    | some v =>
      have hbc : buildCond ib c = .ok [] := by
        simp [buildCond, h1, h2, h3, h4, h5, h6, h7, h8, hp, h10', pure, Except.pure]
      rw [build_exprOfCond, hbc]
      rfl
  · intro dp1 p2 dp2 h1 h2 h3 h4 h5 h6 h7 h8 h9 h10 h11 h12 h13
    have h10' : c.op ∈ ib.ops := by simpa using h10
    cases hp : p2.pconst with
    | none => rw [hp] at h9; cases h9
    | some v =>
      have hbc : buildCond ib c =
          .error "cannot cast the second parameter value to interval point" := by
        simp [buildCond, h1, h2, h3, h4, h5, h6, h7, h8, hp, h10', h11, h12, h13]; rfl
      rw [build_exprOfCond, hbc]

/-- C4 (amended, witness): the unknown-parameter error and the
known-different-parameter silent skip at concrete conditions. -/
theorem C4_amended_witness :
    Build testBuilder (exprOfCond (aCmp "<" 3)) = .error "the parameter must be known" ∧
    Build testBuilder (exprOfCond (uCmp "<" 3)) = .ok [] := by
  constructor
  · exact (C4_amended testBuilder (aCmp "<" 3)).1 rfl
  · exact (C4_amended testBuilder (uCmp "<" 3)).2.2.1
      ⟨⟨true, false, false, true, false⟩, fun _ => none⟩ rfl rfl rfl (by decide)

/-- Helper: the lower-border order is total. -/
theorem lowerLE_total (a b : Interval) : lowerLE a b = true ∨ lowerLE b a = true := by
  simp only [lowerLE, Bool.or_eq_true, Bool.and_eq_true, decide_eq_true_eq,
    Bool.not_eq_true', Bool.or_eq_true]
  cases ha : a.LOpen <;> cases hb : b.LOpen <;> simp <;> omega

/-- Helper: the lower-border order is reflexive. -/
theorem lowerLE_refl (a : Interval) : lowerLE a a = true := by
  simp only [lowerLE, Bool.or_eq_true, Bool.and_eq_true, decide_eq_true_eq,
    Bool.not_eq_true', Bool.or_eq_true]
  cases ha : a.LOpen <;> simp

/-- Helper: the lower-border order is transitive. -/
theorem lowerLE_trans (a b c : Interval) (h1 : lowerLE a b = true) (h2 : lowerLE b c = true) :
    lowerLE a c = true := by
  simp only [lowerLE, Bool.or_eq_true, Bool.and_eq_true, decide_eq_true_eq,
    Bool.not_eq_true', Bool.or_eq_true] at h1 h2 ⊢
  cases ha : a.LOpen <;> cases hb : b.LOpen <;> cases hc : c.LOpen <;> simp_all <;> omega

/-- Helper: lowerLE only inspects the lower border of its first
argument. -/
theorem lowerLE_congr_left (a a' x : Interval) (h1 : a.L = a'.L) (h2 : a.LOpen = a'.LOpen) :
    lowerLE a x = lowerLE a' x := by
  simp [lowerLE, h1, h2]

/-- Helper: lowerLE only inspects the lower border of its second
argument. -/
theorem lowerLE_congr_right (x a a' : Interval) (h1 : a.L = a'.L) (h2 : a.LOpen = a'.LOpen) :
    lowerLE x a = lowerLE x a' := by
  simp [lowerLE, h1, h2]

/-- Helper: touchB only inspects the lower border of its second
argument. -/
theorem touchB_congr_right (x a a' : Interval) (h1 : a.L = a'.L) (h2 : a.LOpen = a'.LOpen) :
    touchB x a = touchB x a' := by
  simp [touchB, h1, h2]

/-- Helper: membership in an insertI result. -/
theorem mem_insertI (x a : Interval) (l : List Interval) :
    a ∈ insertI x l ↔ a = x ∨ a ∈ l := by
  induction l with
  | nil => simp [insertI]
  | cons y ys ih =>
    by_cases h : lowerLE x y = true
    · simp [insertI, h]
    · simp only [insertI]
      rw [if_neg h]
      simp only [List.mem_cons, ih]
      tauto

/-- Helper: insertI preserves sortedness by the lower border. -/
theorem insertI_sorted (x : Interval) (l : List Interval)
    (h : l.Pairwise fun a b => lowerLE a b = true) :
    (insertI x l).Pairwise fun a b => lowerLE a b = true := by
  induction l with
  | nil => simp [insertI]
  | cons y ys ih =>
    rcases List.pairwise_cons.mp h with ⟨hy, hys⟩
    by_cases hxy : lowerLE x y = true
    · simp only [insertI, hxy, if_true, ite_true]
      refine List.pairwise_cons.mpr ⟨?_, h⟩
      intro b hb
      rcases List.mem_cons.mp hb with rfl | hb
      · exact hxy
      · exact lowerLE_trans x y b hxy (hy b hb)
    · simp only [insertI]
      rw [if_neg hxy]
      refine List.pairwise_cons.mpr ⟨?_, ih hys⟩
      intro b hb
      rcases (mem_insertI x b ys).mp hb with rfl | hb
      · rcases lowerLE_total y b with ht | ht
        · exact ht
        · exact absurd ht hxy
      · exact hy b hb

/-- Helper: sortI sorts by the lower border. -/
theorem sortI_sorted (l : List Interval) :
    (sortI l).Pairwise fun a b => lowerLE a b = true := by
  induction l with
  | nil => simp [sortI]
  | cons y ys ih => exact insertI_sorted y (sortI ys) ih

/-- Helper: a successful union of a sorted pair keeps the lower border
of the first interval. -/
theorem union_some_lower (b : Basis) (p c u : Interval) (hle : lowerLE p c = true)
    (hu : b.Union p c = some u) : u.L = p.L ∧ u.LOpen = p.LOpen := by
  unfold Basis.Union at hu
  rw [if_pos hle] at hu
  by_cases ht : touchB p c = true
  · rw [if_pos ht] at hu
    have : hull p c = u := by injection hu
    subst this
    unfold hull
    rw [if_pos hle]
    exact ⟨rfl, rfl⟩
  · rw [if_neg ht] at hu
    cases hu

/-- Helper: a failed union of a sorted pair means the first interval
ends strictly below the second one. -/
theorem union_none_borderBelow (b : Basis) (p c : Interval) (hle : lowerLE p c = true)
    (hu : b.Union p c = none) : borderBelowB p c = true := by
  unfold Basis.Union at hu
  rw [if_pos hle] at hu
  by_cases ht : touchB p c = true
  · rw [if_pos ht] at hu; cases hu
  · simp only [touchB, Bool.or_eq_true, Bool.and_eq_true, decide_eq_true_eq,
      Bool.not_eq_true', Bool.or_eq_true] at ht
    push_neg at ht
    simp only [borderBelowB, Bool.or_eq_true, Bool.and_eq_true, decide_eq_true_eq,
      Bool.or_eq_true]
    cases hp : p.ROpen <;> cases hc : c.LOpen <;> simp_all <;> omega

/-- Helper: ending strictly below an interval extends to every
interval with an equal or later lower border. -/
theorem borderBelow_mono (x y z : Interval) (h1 : borderBelowB x y = true)
    (h2 : lowerLE y z = true) : borderBelowB x z = true := by
  simp only [borderBelowB, lowerLE, Bool.or_eq_true, Bool.and_eq_true, decide_eq_true_eq,
    Bool.not_eq_true', Bool.or_eq_true] at h1 h2 ⊢
  cases hx : x.ROpen <;> cases hy : y.LOpen <;> cases hz : z.LOpen <;> simp_all <;> omega

/-- Helper: intervals separated at the border level are disjoint as
point sets. -/
theorem borderBelow_disjoint (x y : Interval) (h : borderBelowB x y = true) :
    ∀ p : Int, ¬(x.memB p = true ∧ y.memB p = true) := by
  intro p hp
  rcases hp with ⟨hx, hy⟩
  simp only [borderBelowB, Bool.or_eq_true, Bool.and_eq_true, decide_eq_true_eq,
    Bool.or_eq_true] at h
  simp only [Interval.memB, Interval.effL, Interval.effR, Bool.and_eq_true,
    decide_eq_true_eq] at hx hy
  rcases hx with ⟨-, hx2⟩
  rcases hy with ⟨hy1, -⟩
  cases hxO : x.ROpen <;> cases hyO : y.LOpen <;> simp_all <;> omega

/-- Helper: the merge pass of union keeps the list sorted by lower
border, keeps the lower border of the running interval on its head,
and leaves no two neighbours that the basis could still unite. -/
theorem mergeRun_props (b : Basis) (l : List Interval) : ∀ (prev : Interval),
    l.Pairwise (fun a c => lowerLE a c = true) →
    (∀ x ∈ l, lowerLE prev x = true) →
    (∀ y ∈ mergeRun b prev l, lowerLE prev y = true) ∧
    (∃ h t, mergeRun b prev l = h :: t ∧ h.L = prev.L ∧ h.LOpen = prev.LOpen) ∧
    (mergeRun b prev l).Pairwise (fun a c => lowerLE a c = true) ∧
    (mergeRun b prev l).Chain' (fun x y => b.Union x y = none) := by
  induction l with
  | nil =>
    intro prev _ _
    refine ⟨?_, ⟨prev, [], rfl, rfl, rfl⟩, ?_, ?_⟩ <;>
      simp [mergeRun, lowerLE_refl]
  | cons c cs ih =>
    intro prev hs hp
    rcases List.pairwise_cons.mp hs with ⟨hc_cs, hs'⟩
    have hle : lowerLE prev c = true := hp c (by simp)
    cases hu : b.Union prev c with
    | some u =>
      have heq : mergeRun b prev (c :: cs) = mergeRun b u cs := by
        simp [mergeRun, hu]
      obtain ⟨hL, hO⟩ := union_some_lower b prev c u hle hu
      have hp' : ∀ x ∈ cs, lowerLE u x = true := fun x hx => by
        rw [lowerLE_congr_left u prev x hL hO]
        exact hp x (List.mem_cons_of_mem c hx)
      obtain ⟨hlow, hhead, hpair, hchain⟩ := ih u hs' hp'
      rw [heq]
      refine ⟨?_, ?_, hpair, hchain⟩
      · intro y hy
        have := hlow y hy
        rwa [lowerLE_congr_left u prev y hL hO] at this
      · obtain ⟨h0, t0, heq0, hL0, hO0⟩ := hhead
        exact ⟨h0, t0, heq0, by rw [hL0, hL], by rw [hO0, hO]⟩
    | none =>
      have heq : mergeRun b prev (c :: cs) = prev :: mergeRun b c cs := by
        simp [mergeRun, hu]
      obtain ⟨hlow', hhead', hpair', hchain'⟩ := ih c hs' hc_cs
      have hprev_all : ∀ y ∈ mergeRun b c cs, lowerLE prev y = true := fun y hy =>
        lowerLE_trans prev c y hle (hlow' y hy)
      rw [heq]
      refine ⟨?_, ⟨prev, _, rfl, rfl, rfl⟩, ?_, ?_⟩
      · intro y hy
        rcases List.mem_cons.mp hy with rfl | hy
        · exact lowerLE_refl _
        · exact hprev_all y hy
      · exact List.pairwise_cons.mpr ⟨hprev_all, hpair'⟩
      · obtain ⟨h0, t0, heq0, hL0, hO0⟩ := hhead'
        rw [heq0]
        refine List.chain'_cons.mpr ⟨?_, by rw [← heq0]; exact hchain'⟩
        have htfalse : touchB prev c = false := by
          unfold Basis.Union at hu
          rw [if_pos hle] at hu
          cases htt : touchB prev c with
          | false => rfl
          | true => rw [if_pos htt] at hu; cases hu
        unfold Basis.Union
        rw [if_pos (by rw [lowerLE_congr_right prev h0 c hL0 hO0]; exact hle)]
        rw [touchB_congr_right prev h0 c hL0 hO0, htfalse]
        simp

/-- Helper: a sorted list whose neighbours cannot be united is
pairwise separated at the border level. -/
theorem sorted_chain_borderBelow (b : Basis) (l : List Interval)
    (hp : l.Pairwise fun a c => lowerLE a c = true)
    (hc : l.Chain' fun x y => b.Union x y = none) :
    l.Pairwise fun x y => borderBelowB x y = true := by
  induction l with
  | nil => simp
  | cons a rest ih =>
    rcases List.pairwise_cons.mp hp with ⟨ha, hp'⟩
    have hcrest : rest.Chain' (fun x y => b.Union x y = none) := hc.tail
    refine List.pairwise_cons.mpr ⟨?_, ih hp' hcrest⟩
    intro y hy
    cases rest with
    | nil => cases hy
    | cons c cs =>
      have hunion : b.Union a c = none := (List.chain'_cons.mp hc).1
      have hbb_ac : borderBelowB a c = true :=
        union_none_borderBelow b a c (ha c (by simp)) hunion
      rcases List.mem_cons.mp hy with rfl | hy'
      · exact hbb_ac
      · exact borderBelow_mono a c y hbb_ac ((List.pairwise_cons.mp hp').1 y hy')

/-- Helper: union produces a sorted, unmergeable, pairwise-disjoint
interval list, whatever the input. -/
theorem unionI_props (b : Basis) (l : List Interval) :
    ISortedLB (unionI b l) ∧ IMergedMinimal b (unionI b l) ∧ IDisjoint (unionI b l) := by
  unfold unionI
  cases hs : sortI l with
  | nil => simp [ISortedLB, IMergedMinimal, IDisjoint]
  | cons x xs =>
    have hsorted := sortI_sorted l
    rw [hs] at hsorted
    rcases List.pairwise_cons.mp hsorted with ⟨hx, hxs⟩
    obtain ⟨-, -, hpair, hchain⟩ := mergeRun_props b xs x hxs hx
    refine ⟨hpair, hchain, ?_⟩
    exact (sorted_chain_borderBelow b _ hpair hchain).imp
      (fun h => borderBelow_disjoint _ _ h)

/-- C7: for every filter expression accepted by Build, the returned
interval list is sorted ascending by lower border, no two neighbouring
intervals could be united by the basis (minimality: overlapping or
adjacent intervals from different OR branches were merged), and the
intervals are pairwise disjoint as sets of domain points. -/
theorem C7_build_minimal_disjoint (b : Basis) (d : Dialect) (param : String)
    (ops : List String) (e : Expression) (res : List Interval)
    (h : Build ⟨b, d, param, ops⟩ e = .ok res) :
    ISortedLB res ∧ IMergedMinimal b res ∧ IDisjoint res := by
  cases e with
  | mk ors =>
    rw [Build, buildExpr] at h
    cases hb : buildOrList ⟨b, d, param, ops⟩ ors with
    | error e0 =>
      rw [hb] at h
      cases h
    | ok tts =>
      rw [hb] at h
      have : unionI b tts = res := by
        simpa [bind, Except.bind, pure, Except.pure] using h
      rw [← this]
      exact unionI_props b tts

/-- C7 (witness): the interval list built from the expression
`t <= 10 OR t >= 5` over the domain `[0, 100]` (the two overlapping OR
branches merge into the single interval `[0, 100]`). -/
theorem C7_build_minimal_disjoint_witness :
    ISortedLB [⟨0, 100, false, false⟩] ∧
    IMergedMinimal testBasis [⟨0, 100, false, false⟩] ∧
    IDisjoint [⟨0, 100, false, false⟩] :=
  C7_build_minimal_disjoint testBasis testDialect "t" ["<", ">", "<=", ">=", "=", "!="]
    (Expression.mk [OrCondition.mk [XCondition.cond false (tCmp "<=" 10)],
      OrCondition.mk [XCondition.cond false (tCmp ">=" 5)]])
    [⟨0, 100, false, false⟩]
    (by simp only [Build, buildExpr, buildOrList, buildOR, buildAndList, buildXCond]; rfl)

end ql

namespace logfs

/-- Helper: the added counter of the append loop grows exactly by the
sum of the written counts reported by the successful codec calls. -/
theorem appendLoop_added (codec : Codec) (mint : Nat → Nat) (ci : ChunkInfo)
    (recs : List Rec) (cis : List ChunkInfo) (added cnt : Nat) (trace : List Nat) :
    (appendLoop codec mint ci recs cis added cnt trace).added + trace.sum
      = added + (appendLoop codec mint ci recs cis added cnt trace).trace.sum := by
  induction ci, recs, cis, added, cnt, trace using appendLoop.induct codec mint with
  | case1 ci recs cis added cnt trace hres =>
    rw [appendLoop]; simp [hres]
  | case2 ci recs cis added cnt trace hres hfresh ci2 e hcodec =>
    rw [appendLoop]; simp [hres, hfresh, hcodec]
  | case3 ci recs cis added cnt trace hres hfresh ci2 arr hcodec hw ci3 ih =>
    rw [appendLoop]
    simp only [hres, hfresh, hcodec, hw, if_true, if_false, ite_true, ite_false, dite_true,
      dite_false, Bool.false_eq_true, dite_eq_ite]
    rw [show ci3 = applyWrite ci2 arr from rfl] at ih
    rw [show ci2 = ⟨mint cnt, 0, 0, 0⟩ from rfl] at ih
    simp only [List.sum_append, List.sum_cons, List.sum_nil] at ih ⊢
    omega
  | case4 ci recs cis added cnt trace hres hfresh ci2 arr hcodec hw =>
    rw [appendLoop]
    simp only [hres, hfresh, hcodec, hw, if_true, if_false, ite_true, ite_false, dite_true,
      dite_false, Bool.false_eq_true, dite_eq_ite]
    simp [List.sum_append]
    omega
  | case5 ci recs cis added cnt trace hres hfresh e hcodec =>
    rw [appendLoop]; simp [hres, hfresh, hcodec]
  | case6 ci recs cis added cnt trace hres hfresh arr hcodec hw ci3 ih =>
    rw [appendLoop]
    simp only [hres, hfresh, hcodec, hw, if_true, if_false, ite_true, ite_false, dite_true,
      dite_false, Bool.false_eq_true, dite_eq_ite]
    rw [show ci3 = applyWrite ci arr from rfl] at ih
    simp only [List.sum_append, List.sum_cons, List.sum_nil] at ih ⊢
    omega
  | case7 ci recs cis added cnt trace hres hfresh arr hcodec hw ih =>
    rw [appendLoop]
    simp only [hres, hfresh, hcodec, hw, if_true, if_false, ite_true, ite_false, dite_true,
      dite_false, Bool.false_eq_true, dite_eq_ite]
    simp only [List.sum_append, List.sum_cons, List.sum_nil] at ih ⊢
    omega

/-- Helper: every chunk descriptor accumulated by the append loop has a
positive record count (a chunk that accepted no records is never
recorded). -/
theorem appendLoop_cis_pos (codec : Codec) (mint : Nat → Nat) (ci : ChunkInfo)
    (recs : List Rec) (cis : List ChunkInfo) (added cnt : Nat) (trace : List Nat)
    (h : ∀ c ∈ cis, 0 < c.recordsCount) :
    ∀ c ∈ (appendLoop codec mint ci recs cis added cnt trace).cis, 0 < c.recordsCount := by
  induction ci, recs, cis, added, cnt, trace using appendLoop.induct codec mint with
  | case1 ci recs cis added cnt trace hres =>
    rw [appendLoop]; simpa [hres] using h
  | case2 ci recs cis added cnt trace hres hfresh ci2 e hcodec =>
    rw [appendLoop]; simpa [hres, hfresh, hcodec] using h
  | case3 ci recs cis added cnt trace hres hfresh ci2 arr hcodec hw ci3 ih =>
    rw [appendLoop]
    simp only [hres, hfresh, hcodec, hw, if_true, if_false, ite_true, ite_false,
      Bool.false_eq_true]
    rw [show ci3 = applyWrite ci2 arr from rfl] at ih
    rw [show ci2 = ⟨mint cnt, 0, 0, 0⟩ from rfl] at ih
    refine ih ?_
    intro c hc
    rcases List.mem_append.mp hc with hc | hc
    · exact h c hc
    · rcases List.mem_singleton.mp hc with rfl
      simp [applyWrite]
      omega
  | case4 ci recs cis added cnt trace hres hfresh ci2 arr hcodec hw =>
    rw [appendLoop]; simpa [hres, hfresh, hcodec, hw] using h
  | case5 ci recs cis added cnt trace hres hfresh e hcodec =>
    rw [appendLoop]; simpa [hres, hfresh, hcodec] using h
  | case6 ci recs cis added cnt trace hres hfresh arr hcodec hw ci3 ih =>
    rw [appendLoop]
    simp only [hres, hfresh, hcodec, hw, if_true, if_false, ite_true, ite_false,
      Bool.false_eq_true]
    rw [show ci3 = applyWrite ci arr from rfl] at ih
    refine ih ?_
    intro c hc
    rcases List.mem_append.mp hc with hc | hc
    · exact h c hc
    · rcases List.mem_singleton.mp hc with rfl
      simp [applyWrite]
      omega
  | case7 ci recs cis added cnt trace hres hfresh arr hcodec hw ih =>
    rw [appendLoop]
    simp only [hres, hfresh, hcodec, hw, if_true, if_false, ite_true, ite_false,
      Bool.false_eq_true]
    exact ih h

/-- Helper: when the codec itself never fails with ErrInvalid, a
pending Invalid error of the append loop can only come from the
fresh-chunk-accepted-zero-records branch, whose final chunk descriptor
is the freshly minted empty one. -/
theorem appendLoop_invalid_fresh (codec : Codec) (mint : Nat → Nat) (ci : ChunkInfo)
    (recs : List Rec) (cis : List ChunkInfo) (added cnt : Nat) (trace : List Nat)
    (hc : ∀ i nf rs, codec i nf rs ≠ .error .invalid) :
    (appendLoop codec mint ci recs cis added cnt trace).gerr = some .invalid →
      (appendLoop codec mint ci recs cis added cnt trace).ci.recordsCount = 0 := by
  induction ci, recs, cis, added, cnt, trace using appendLoop.induct codec mint with
  | case1 ci recs cis added cnt trace hres =>
    rw [appendLoop]; simp [hres]
  | case2 ci recs cis added cnt trace hres hfresh ci2 e hcodec =>
    rw [appendLoop]
    simp only [hres, hfresh, hcodec, if_true, if_false, ite_true, ite_false,
      Bool.false_eq_true]
    intro he
    simp at he
    subst he
    exact absurd hcodec (hc _ _ _)
  | case3 ci recs cis added cnt trace hres hfresh ci2 arr hcodec hw ci3 ih =>
    rw [appendLoop]
    simp only [hres, hfresh, hcodec, hw, if_true, if_false, ite_true, ite_false,
      Bool.false_eq_true]
    exact ih
  | case4 ci recs cis added cnt trace hres hfresh ci2 arr hcodec hw =>
    rw [appendLoop]
    simp [hres, hfresh, hcodec, hw]
  | case5 ci recs cis added cnt trace hres hfresh e hcodec =>
    rw [appendLoop]
    simp only [hres, hfresh, hcodec, if_true, if_false, ite_true, ite_false,
      Bool.false_eq_true]
    intro he
    simp at he
    subst he
    exact absurd hcodec (hc _ _ _)
  | case6 ci recs cis added cnt trace hres hfresh arr hcodec hw ci3 ih =>
    rw [appendLoop]
    simp only [hres, hfresh, hcodec, hw, if_true, if_false, ite_true, ite_false,
      Bool.false_eq_true]
    exact ih
  | case7 ci recs cis added cnt trace hres hfresh arr hcodec hw ih =>
    rw [appendLoop]
    simp only [hres, hfresh, hcodec, hw, if_true, if_false, ite_true, ite_false,
      Bool.false_eq_true]
    exact ih

/-- C1: for every AppendRecords call (any codec behaviour, catalog
upsert succeeding): the returned Added equals the total number of
records the codec durably wrote (the sum of the ghost write trace);
when at least one record was written the call returns success and any
pending write error is suppressed; when nothing was written the
pending error is returned. -/
theorem C1_append_partial_success (codec : Codec) (mint : Nat → Nat)
    (lastChunk : Except Err ChunkInfo) (recs : List Rec) :
    (AppendRecords codec mint lastChunk true recs).out =
      .res (AppendRecords codec mint lastChunk true recs).trace.sum
        (if (AppendRecords codec mint lastChunk true recs).trace.sum = 0
         then (AppendRecords codec mint lastChunk true recs).loopErr else none) := by
  have key : ∀ ci0 : ChunkInfo,
      (AppendRecords.appendFinish (appendLoop codec mint ci0 recs [] 0 0 []) true).out =
        .res (AppendRecords.appendFinish (appendLoop codec mint ci0 recs [] 0 0 []) true).trace.sum
          (if (AppendRecords.appendFinish (appendLoop codec mint ci0 recs [] 0 0 []) true).trace.sum = 0
           then (AppendRecords.appendFinish (appendLoop codec mint ci0 recs [] 0 0 []) true).loopErr
           else none) := by
    intro ci0
    have hsum := appendLoop_added codec mint ci0 recs [] 0 0 []
    simp only [List.sum_nil, Nat.add_zero, Nat.zero_add] at hsum
    unfold AppendRecords.appendFinish
    by_cases hpos : 0 < (appendLoop codec mint ci0 recs [] 0 0 []).added
    · simp only [hpos, if_true, ite_true]
      rw [← hsum]
      have : ¬(appendLoop codec mint ci0 recs [] 0 0 []).added = 0 := by omega
      simp [this]
    · simp only [hpos, if_false, ite_false]
      have h0 : (appendLoop codec mint ci0 recs [] 0 0 []).added = 0 := by omega
      rw [← hsum, h0]
      simp
  match lastChunk with
  | .error e =>
    by_cases he : e = .notExist
    · subst he
      exact key ⟨0, 0, 0, 0⟩
    · simp only [AppendRecords, he, if_false, ite_false]
      simp
  | .ok ci => exact key ci

/-- C5 (counterexample): with a codec whose first chunk holds exactly
one record and whose later (fresh) chunks accept none, appending two
records writes one record into the first chunk and then hits the
fatal sizing condition on the second, freshly created chunk (the trace
ends with a zero write); yet the call does not return an Invalid
error: it reports success with Added = 1 because records were written
to an earlier chunk. -/
theorem C5_counterexample :
    (AppendRecords cexCodec id (.error .notExist) true [⟨0, 5⟩, ⟨0, 6⟩]).out = .res 1 none ∧
    (AppendRecords cexCodec id (.error .notExist) true [⟨0, 5⟩, ⟨0, 6⟩]).trace = [1, 0] := by
  constructor <;>
    simp [AppendRecords, AppendRecords.appendFinish, appendLoop, cexCodec, applyWrite]

/-- C5 (amended): when a newly created, still-empty chunk accepts zero
records (and the codec itself never fails with ErrInvalid), the append
loop aborts with a pending Invalid error and records no state for that
chunk: the final descriptor is the empty fresh one, it is deleted as an
empty file and never persisted among the accumulated descriptors;
records written to earlier chunks in the same call are still reported
as added, in which case the Invalid error is suppressed; only when
nothing at all was written is the Invalid error returned to the
caller. -/
theorem C5_amended (codec : Codec) (mint : Nat → Nat) (lastChunk : Except Err ChunkInfo)
    (recs : List Rec)
    (hc : ∀ i nf rs, codec i nf rs ≠ .error .invalid)
    (hlc : lastChunk = .error .notExist ∨ ∃ ci0, lastChunk = .ok ci0) :
    (AppendRecords codec mint lastChunk true recs).loopErr = some .invalid →
      (AppendRecords codec mint lastChunk true recs).finalCi.recordsCount = 0 ∧
      (AppendRecords codec mint lastChunk true recs).delEmpty = true ∧
      (AppendRecords codec mint lastChunk true recs).finalCi ∉
        (AppendRecords codec mint lastChunk true recs).cis ∧
      (∀ c ∈ (AppendRecords codec mint lastChunk true recs).cis, 0 < c.recordsCount) ∧
      ((AppendRecords codec mint lastChunk true recs).trace.sum = 0 →
        (AppendRecords codec mint lastChunk true recs).out = .res 0 (some .invalid)) ∧
      (0 < (AppendRecords codec mint lastChunk true recs).trace.sum →
        (AppendRecords codec mint lastChunk true recs).out =
          .res (AppendRecords codec mint lastChunk true recs).trace.sum none) := by
  have key : ∀ ci0 : ChunkInfo,
      (AppendRecords.appendFinish (appendLoop codec mint ci0 recs [] 0 0 []) true).loopErr
          = some .invalid →
        (AppendRecords.appendFinish (appendLoop codec mint ci0 recs [] 0 0 []) true).finalCi.recordsCount = 0 ∧
        (AppendRecords.appendFinish (appendLoop codec mint ci0 recs [] 0 0 []) true).delEmpty = true ∧
        (AppendRecords.appendFinish (appendLoop codec mint ci0 recs [] 0 0 []) true).finalCi ∉
          (AppendRecords.appendFinish (appendLoop codec mint ci0 recs [] 0 0 []) true).cis ∧
        (∀ c ∈ (AppendRecords.appendFinish (appendLoop codec mint ci0 recs [] 0 0 []) true).cis,
          0 < c.recordsCount) ∧
        ((AppendRecords.appendFinish (appendLoop codec mint ci0 recs [] 0 0 []) true).trace.sum = 0 →
          (AppendRecords.appendFinish (appendLoop codec mint ci0 recs [] 0 0 []) true).out
            = .res 0 (some .invalid)) ∧
        (0 < (AppendRecords.appendFinish (appendLoop codec mint ci0 recs [] 0 0 []) true).trace.sum →
          (AppendRecords.appendFinish (appendLoop codec mint ci0 recs [] 0 0 []) true).out =
            .res (AppendRecords.appendFinish
              (appendLoop codec mint ci0 recs [] 0 0 []) true).trace.sum none) := by
    intro ci0
    set r := appendLoop codec mint ci0 recs [] 0 0 [] with hr
    have hpos := appendLoop_cis_pos codec mint ci0 recs [] 0 0 [] (by simp)
    have hinv := appendLoop_invalid_fresh codec mint ci0 recs [] 0 0 [] hc
    have hsum := appendLoop_added codec mint ci0 recs [] 0 0 []
    simp only [List.sum_nil, Nat.add_zero, Nat.zero_add] at hsum
    rw [← hr] at hpos hinv hsum
    unfold AppendRecords.appendFinish
    by_cases hp : 0 < r.added
    · simp only [hp, if_true, ite_true]
      intro hge
      have hci0 : r.ci.recordsCount = 0 := hinv hge
      refine ⟨hci0, by simp [hci0], ?_, hpos, ?_, ?_⟩
      · intro hmem
        have := hpos _ hmem
        omega
      · intro hz; omega
      · intro _; rw [← hsum]
    · simp only [hp, if_false, ite_false]
      intro hge
      have hci0 : r.ci.recordsCount = 0 := hinv hge
      refine ⟨hci0, by simp [hci0], ?_, hpos, ?_, ?_⟩
      · intro hmem
        have := hpos _ hmem
        omega
      · intro _
        have h0 : r.added = 0 := by omega
        rw [h0, hge]
      · intro hz; omega
  rcases hlc with rfl | ⟨ci0, rfl⟩
  · exact key ⟨0, 0, 0, 0⟩
  · exact key ci0

/-- C5 (amended, witness): the amended behaviour at the concrete
two-record append whose second, freshly created chunk accepts zero
records: the fresh chunk is not persisted and the call reports one
added record with no error. -/
theorem C5_amended_witness :
    (AppendRecords cexCodec id (.error .notExist) true [⟨0, 5⟩, ⟨0, 6⟩]).finalCi.recordsCount = 0 ∧
    (AppendRecords cexCodec id (.error .notExist) true [⟨0, 5⟩, ⟨0, 6⟩]).delEmpty = true ∧
    (AppendRecords cexCodec id (.error .notExist) true [⟨0, 5⟩, ⟨0, 6⟩]).finalCi ∉
      (AppendRecords cexCodec id (.error .notExist) true [⟨0, 5⟩, ⟨0, 6⟩]).cis ∧
    (∀ c ∈ (AppendRecords cexCodec id (.error .notExist) true [⟨0, 5⟩, ⟨0, 6⟩]).cis,
      0 < c.recordsCount) ∧
    ((AppendRecords cexCodec id (.error .notExist) true [⟨0, 5⟩, ⟨0, 6⟩]).trace.sum = 0 →
      (AppendRecords cexCodec id (.error .notExist) true [⟨0, 5⟩, ⟨0, 6⟩]).out
        = .res 0 (some .invalid)) ∧
    (0 < (AppendRecords cexCodec id (.error .notExist) true [⟨0, 5⟩, ⟨0, 6⟩]).trace.sum →
      (AppendRecords cexCodec id (.error .notExist) true [⟨0, 5⟩, ⟨0, 6⟩]).out =
        .res (AppendRecords cexCodec id (.error .notExist) true [⟨0, 5⟩, ⟨0, 6⟩]).trace.sum none) := by
  refine C5_amended cexCodec id (.error .notExist) [⟨0, 5⟩, ⟨0, 6⟩] ?_ (Or.inl rfl) ?_
  · intro i nf rs
    simp only [cexCodec]
    split <;> simp
  · simp [AppendRecords, AppendRecords.appendFinish, appendLoop, cexCodec, applyWrite]

/-- Helper: sizeSum distributes over cons. -/
theorem sizeSum_cons (r : Rec) (l : List Rec) : sizeSum (r :: l) = r.psize + sizeSum l := by
  simp [sizeSum]

/-- Helper: sizeSum distributes over append. -/
theorem sizeSum_append (a b : List Rec) : sizeSum (a ++ b) = sizeSum a + sizeSum b := by
  simp [sizeSum]

/-- Helper: the read loop takes at most `limit` records and advances
the cumulative size by exactly the sizes of the records taken. -/
theorem takeRecs_spec (mb : Nat) (l : List Rec) : ∀ (limit ts : Nat),
    (takeRecs mb limit l ts).1.length ≤ limit ∧
    (takeRecs mb limit l ts).2 = ts + sizeSum (takeRecs mb limit l ts).1 := by
  induction l with
  | nil => intro limit ts; simp [takeRecs, sizeSum]
  | cons r rs ih =>
    intro limit ts
    by_cases h : 0 < limit ∧ ts < mb
    · simp only [takeRecs]
      rw [if_pos h]
      rcases ih (limit - 1) (ts + r.psize) with ⟨h1, h2⟩
      dsimp only
      constructor
      · simp only [List.length_cons]
        omega
      · rw [sizeSum_cons]
        omega
    · simp only [takeRecs]
      rw [if_neg h]
      simp [sizeSum]

/-- Helper: the chunk iteration loop only appends records to the
accumulator, adds exactly their sizes to the running total, and never
exceeds the record limit. -/
theorem qLoop_spec (cfg : Config) (chunks : List Chunk) (descending : Bool) (limit : Nat) :
    ∀ (idx : Int) (sid : Option Nat) (ts : Nat) (res : List Rec),
    ∃ extra,
      qLoop cfg chunks descending limit idx sid ts res = (res ++ extra, ts + sizeSum extra) ∧
      (res.length ≤ limit → (res ++ extra).length ≤ limit) := by
  intro idx sid ts res
  induction idx, sid, ts, res using qLoop.induct cfg chunks descending limit with
  | case1 idx sid ts res h c step ih =>
    have hc : c = chunks.getD idx.toNat defaultChunk := rfl
    have hstep : step = readRecords cfg c descending sid (limit - res.length) ts := rfl
    rw [hstep, hc] at ih
    simp only [dite_eq_ite] at ih
    rcases ih with ⟨extra1, hout, hlen⟩
    rw [qLoop, dif_pos h]
    dsimp only
    have hst := takeRecs_spec cfg.maxBunchSize
      (applyStart descending sid
        (chunkSeq (chunks.getD idx.toNat defaultChunk) descending)) (limit - res.length) ts
    rcases hst with ⟨hst1, hst2⟩
    rw [show readRecords cfg (chunks.getD idx.toNat defaultChunk) descending sid
          (limit - res.length) ts
        = takeRecs cfg.maxBunchSize (limit - res.length)
            (applyStart descending sid
              (chunkSeq (chunks.getD idx.toNat defaultChunk) descending)) ts from rfl] at hout hlen
    refine ⟨(takeRecs cfg.maxBunchSize (limit - res.length)
        (applyStart descending sid
          (chunkSeq (chunks.getD idx.toNat defaultChunk) descending)) ts).1 ++ extra1, ?_, ?_⟩
    · rw [readRecords, hout]
      simp only [Prod.mk.injEq]
      constructor
      · rw [List.append_assoc]
      · rw [sizeSum_append]
        omega
    · intro hres
      rw [← List.append_assoc]
      refine hlen ?_
      simp only [List.length_append]
      omega
  | case2 idx sid ts res h =>
    rw [qLoop, dif_neg h]
    exact ⟨[], by simp [sizeSum], by simp⟩

/-- C2 (counterexample): querying a one-record log with limit 1
returns the whole log (every record of it) and still reports
`more = true`, although the log is genuinely exhausted: the flag is
raised whenever the returned count reaches the limit, also when the
number of remaining records equals the limit exactly. -/
theorem C2_counterexample :
    QueryRecords qcfg qlog1 none false 1 = (allRecs qlog1, true) := by
  simp [QueryRecords, qLoop, readRecords, takeRecs, applyStart, chunkSeq, qcfg, qlog1,
    allRecs, defaultChunk, sizeSum]

/-- C2 (amended): QueryRecords never returns more records than the
effective limit (the requested limit clamped by MaxRecordsLimit), and
the `more` flag is true exactly when the returned record count equals
the effective limit or the cumulative payload size of the returned
records reaches MaxBunchSize (and the chunk list is not empty) —
regardless of whether further records exist in the log. -/
theorem C2_amended (cfg : Config) (chunks : List Chunk) (startID : Option Nat)
    (descending : Bool) (limit0 : Nat) :
    (QueryRecords cfg chunks startID descending limit0).1.length
        ≤ min limit0 cfg.maxRecordsLimit ∧
    ((QueryRecords cfg chunks startID descending limit0).2 = true ↔
      (¬chunks.isEmpty ∧
        ((QueryRecords cfg chunks startID descending limit0).1.length
            = min limit0 cfg.maxRecordsLimit ∨
         cfg.maxBunchSize ≤ sizeSum (QueryRecords cfg chunks startID descending limit0).1))) := by
  by_cases hemp : chunks.isEmpty
  · simp [QueryRecords, hemp]
  · have hemp' : chunks.isEmpty = false := by simpa using hemp
    unfold QueryRecords
    simp only [hemp', Bool.false_eq_true, if_false, ite_false]
    rcases qLoop_spec cfg chunks descending (min limit0 cfg.maxRecordsLimit)
        (match startID with
         | none => if descending then (chunks.length : Int) - 1 else 0
         | some sid =>
           if descending then (List.findIdx (fun c => sid < c.info.cmin) chunks : Int) - 1
           else (List.findIdx (fun c => sid ≤ c.info.cmax) chunks : Int))
        startID 0 [] with ⟨extra, hout, hlen⟩
    rw [hout]
    simp only [List.nil_append, Nat.zero_add] at *
    have hle : extra.length ≤ min limit0 cfg.maxRecordsLimit := hlen (by simp)
    constructor
    · exact hle
    · show decide _ = true ↔ _
      rw [decide_eq_true_eq]
      constructor
      · intro h
        rcases h with h | h
        · exact ⟨by simpa using hemp, Or.inl (by omega)⟩
        · exact ⟨by simpa using hemp, Or.inr h⟩
      · intro ⟨_, h⟩
        rcases h with h | h
        · exact Or.inl (by omega)
        · exact Or.inr h

/-- Helper: sortedness of the tail of a sorted record list. -/
theorem recsSortedB_tail (a : Rec) (l : List Rec) (h : recsSortedB (a :: l) = true) :
    recsSortedB l = true := by
  cases l with
  | nil => rfl
  | cons b t =>
    simp only [recsSortedB, Bool.and_eq_true] at h
    exact h.2

/-- Helper: the head of a sorted record list is strictly below every
tail element. -/
theorem recsSortedB_head_lt (a : Rec) (l : List Rec) (h : recsSortedB (a :: l) = true) :
    ∀ r ∈ l, a.rid < r.rid := by
  induction l generalizing a with
  | nil => intro r hr; cases hr
  | cons b t ih =>
    intro r hr
    have h' := h
    simp only [recsSortedB, Bool.and_eq_true, decide_eq_true_eq] at h'
    rcases List.mem_cons.mp hr with rfl | hr
    · exact h'.1
    · exact Nat.lt_trans h'.1 (ih b h'.2 r hr)

/-- Helper: every element of a sorted record list is at most the last
element. -/
theorem recsSorted_le_last (l : List Rec) : ∀ (d : Rec), recsSortedB l = true →
    ∀ r ∈ l, r.rid ≤ (l.getLastD d).rid := by
  induction l with
  | nil => intro d _ r hr; cases hr
  | cons a t ih =>
    intro d h r hr
    rw [List.getLastD_cons]
    rcases List.mem_cons.mp hr with rfl | hr
    · by_cases ht : t = []
      · subst ht; simp
      · exact Nat.le_of_lt (recsSortedB_head_lt r t h _ (getLastD_mem t r ht))
    · exact ih a (recsSortedB_tail a t h) r hr

/-- Helper: every record of a well-formed chunk lies between the Min
and Max of its descriptor. -/
theorem chunkWF_bounds (c : Chunk) (h : chunkWFb c = true) :
    ∀ r ∈ c.recs, c.info.cmin ≤ r.rid ∧ r.rid ≤ c.info.cmax := by
  have h' := h
  simp only [chunkWFb, Bool.and_eq_true, decide_eq_true_eq] at h'
  obtain ⟨⟨⟨⟨hne, hsort⟩, hmin⟩, hmax⟩, hcount⟩ := h'
  intro r hr
  constructor
  · rw [hmin]
    cases hl : c.recs with
    | nil => rw [hl] at hr; cases hr
    | cons a t =>
      rw [hl] at hr hsort
      simp only [List.headD_cons]
      rcases List.mem_cons.mp hr with rfl | hr
      · exact Nat.le_refl _
      · exact Nat.le_of_lt (recsSortedB_head_lt a t hsort r hr)
  · rw [hmax]
    exact recsSorted_le_last c.recs ⟨0, 0⟩ hsort r hr

/-- Helper: in a well-formed chunk the Min does not exceed the Max. -/
theorem chunkWF_min_le_max (c : Chunk) (h : chunkWFb c = true) :
    c.info.cmin ≤ c.info.cmax := by
  have h' := h
  simp only [chunkWFb, Bool.and_eq_true, decide_eq_true_eq] at h'
  obtain ⟨⟨⟨⟨hne, hsort⟩, hmin⟩, hmax⟩, hcount⟩ := h'
  cases hl : c.recs with
  | nil => rw [hl] at hne; simp at hne
  | cons a t =>
    have ha : a ∈ c.recs := by rw [hl]; simp
    rcases chunkWF_bounds c h a ha with ⟨h1, h2⟩
    exact Nat.le_trans h1 h2

/-- Helper: every chunk of a well-formed log is well-formed. -/
theorem logWFb_all (chunks : List Chunk) (h : logWFb chunks = true) :
    ∀ c ∈ chunks, chunkWFb c = true := by
  simp only [logWFb, Bool.and_eq_true, List.all_eq_true] at h
  exact h.1

/-- Helper: the tail of a well-formed log is well-formed. -/
theorem logWFb_tail (c : Chunk) (rest : List Chunk) (h : logWFb (c :: rest) = true) :
    logWFb rest = true := by
  simp only [logWFb, Bool.and_eq_true, List.all_eq_true] at h ⊢
  refine ⟨fun x hx => h.1 x (List.mem_cons_of_mem c hx), ?_⟩
  have := h.2
  cases rest with
  | nil => rfl
  | cons b t =>
    simp only [chunksOrderedB, Bool.and_eq_true] at this
    exact this.2

/-- Helper: the head chunk of a well-formed log lies entirely below
every later chunk. -/
theorem chunks_head_lt (c : Chunk) (rest : List Chunk) (h : logWFb (c :: rest) = true) :
    ∀ c' ∈ rest, c.info.cmax < c'.info.cmin := by
  induction rest generalizing c with
  | nil => intro c' hc'; cases hc'
  | cons b t ih =>
    intro c' hc'
    have hcb : c.info.cmax < b.info.cmin := by
      have h' := h
      simp only [logWFb, Bool.and_eq_true, List.all_eq_true, chunksOrderedB,
        decide_eq_true_eq] at h'
      exact h'.2.1
    rcases List.mem_cons.mp hc' with rfl | hc'
    · exact hcb
    · have hb : logWFb (b :: t) = true := logWFb_tail c (b :: t) h
      have hbmm : b.info.cmin ≤ b.info.cmax :=
        chunkWF_min_le_max b (logWFb_all (b :: t) hb b (by simp))
      exact Nat.lt_trans (Nat.lt_of_lt_of_le hcb hbmm) (ih b hb c' hc')

/-- Helper: every record stored after the head chunk of a well-formed
log has an ID above the head chunk's Max. -/
theorem rest_records_above (c : Chunk) (rest : List Chunk) (h : logWFb (c :: rest) = true) :
    ∀ r ∈ allRecs rest, c.info.cmax < r.rid := by
  intro r hr
  rcases List.mem_flatMap.mp hr with ⟨c', hc', hrc⟩
  have hwfc' : chunkWFb c' = true :=
    logWFb_all (c :: rest) h c' (List.mem_cons_of_mem c hc')
  have hmin := (chunkWF_bounds c' hwfc' r hrc).1
  exact Nat.lt_of_lt_of_le (chunks_head_lt c rest h c' hc') hmin

/-- Helper: location of the ascending boundary chunk: all chunks
before the found index hold only records below the start ID, all
chunks after it only records above it, and the boundary chunk's Max is
at or above it. -/
theorem locate_asc (chunks : List Chunk) (sid : Nat) (hwf : logWFb chunks = true)
    (hk : List.findIdx (fun c => sid ≤ c.info.cmax) chunks < chunks.length) :
    (∀ c ∈ chunks.take (List.findIdx (fun c => sid ≤ c.info.cmax) chunks),
       ∀ r ∈ c.recs, r.rid < sid) ∧
    (∀ c ∈ chunks.drop (List.findIdx (fun c => sid ≤ c.info.cmax) chunks + 1),
       ∀ r ∈ c.recs, sid < r.rid) ∧
    sid ≤ (chunks.getD (List.findIdx (fun c => sid ≤ c.info.cmax) chunks)
      defaultChunk).info.cmax := by
  induction chunks with
  | nil => simp at hk
  | cons c rest ih =>
    by_cases hc : sid ≤ c.info.cmax
    · have hfi : List.findIdx (fun c => sid ≤ c.info.cmax) (c :: rest) = 0 := by
        simp [List.findIdx_cons, hc]
      rw [hfi]
      refine ⟨by simp, ?_, by simpa using hc⟩
      intro c' hc' r hr
      have : r ∈ allRecs rest := List.mem_flatMap.mpr ⟨c', by simpa using hc', hr⟩
      exact Nat.lt_of_le_of_lt hc (rest_records_above c rest hwf r this)
    · have hfi : List.findIdx (fun c => sid ≤ c.info.cmax) (c :: rest)
          = List.findIdx (fun c => sid ≤ c.info.cmax) rest + 1 := by
        simp [List.findIdx_cons, hc]
      rw [hfi] at hk ⊢
      have hk' : List.findIdx (fun c => sid ≤ c.info.cmax) rest < rest.length := by
        simpa using hk
      rcases ih (logWFb_tail c rest hwf) hk' with ⟨htake, hdrop, hmax⟩
      refine ⟨?_, ?_, ?_⟩
      · rw [List.take_succ_cons]
        intro c' hc' r hr
        rcases List.mem_cons.mp hc' with rfl | hc'
        · have := (chunkWF_bounds c' (logWFb_all (c' :: rest) hwf c' (by simp)) r hr).2
          omega
        · exact htake c' hc' r hr
      · rw [List.drop_succ_cons]
        exact hdrop
      · rw [List.getD_cons_succ]
        exact hmax

/-- Helper: location of the descending boundary chunk (index
`findIdx (Min > sid) - 1`): all chunks before it hold only records
below the start ID is false — they hold records below it, all chunks
from the found index on hold only records above it, and the boundary
chunk's Min is at or below the start ID. -/
theorem locate_desc (chunks : List Chunk) (sid : Nat) (hwf : logWFb chunks = true)
    (hj : 1 ≤ List.findIdx (fun c => sid < c.info.cmin) chunks) :
    (∀ c ∈ chunks.take (List.findIdx (fun c => sid < c.info.cmin) chunks - 1),
       ∀ r ∈ c.recs, r.rid < sid) ∧
    (∀ c ∈ chunks.drop (List.findIdx (fun c => sid < c.info.cmin) chunks),
       ∀ r ∈ c.recs, sid < r.rid) ∧
    (chunks.getD (List.findIdx (fun c => sid < c.info.cmin) chunks - 1)
      defaultChunk).info.cmin ≤ sid ∧
    List.findIdx (fun c => sid < c.info.cmin) chunks - 1 < chunks.length := by
  induction chunks with
  | nil => simp at hj
  | cons c rest ih =>
    by_cases hc : sid < c.info.cmin
    · exfalso
      have : List.findIdx (fun c => sid < c.info.cmin) (c :: rest) = 0 := by
        simp [List.findIdx_cons, hc]
      omega
    · have hfi : List.findIdx (fun c => sid < c.info.cmin) (c :: rest)
          = List.findIdx (fun c => sid < c.info.cmin) rest + 1 := by
        simp [List.findIdx_cons, hc]
      rw [hfi]
      simp only [Nat.add_sub_cancel]
      by_cases hj' : 1 ≤ List.findIdx (fun c => sid < c.info.cmin) rest
      · rcases ih (logWFb_tail c rest hwf) hj' with ⟨htake, hdrop, hmin, hlen⟩
        set j' := List.findIdx (fun c => sid < c.info.cmin) rest with hj'def
        have hj'succ : j' = (j' - 1) + 1 := by omega
        refine ⟨?_, ?_, ?_, ?_⟩
        · rw [hj'succ, List.take_succ_cons]
          intro c' hc' r hr
          rcases List.mem_cons.mp hc' with rfl | hc'
          · -- head chunk: its records lie below the boundary chunk's Min
            have hbmem : rest.getD (j' - 1) defaultChunk ∈ rest := by
              rw [List.getD_eq_getElem rest defaultChunk (by omega)]
              exact List.getElem_mem _
            have hlt : c'.info.cmax < (rest.getD (j' - 1) defaultChunk).info.cmin :=
              chunks_head_lt c' rest hwf _ hbmem
            have hbound :=
              (chunkWF_bounds c' (logWFb_all (c' :: rest) hwf c' (by simp)) r hr).2
            omega
          · exact htake c' hc' r hr
        · rw [hj'succ, List.drop_succ_cons, ← hj'succ]
          exact hdrop
        · rw [hj'succ, List.getD_cons_succ]
          exact hmin
        · simp only [List.length_cons]
          omega
      · have hj0 : List.findIdx (fun c => sid < c.info.cmin) rest = 0 := by omega
        rw [hj0]
        refine ⟨by simp, ?_, by simpa using hc, by simp⟩
        rw [List.drop_succ_cons, List.drop_zero]
        intro c' hc' r hr
        cases rest with
        | nil => cases hc'
        | cons b t =>
          have hwfrest : logWFb (b :: t) = true := logWFb_tail c (b :: t) hwf
          have hpb : sid < b.info.cmin := by
            by_contra hnb
            simp [List.findIdx_cons, hnb] at hj0
          rcases List.mem_cons.mp hc' with rfl | hc'
          · exact Nat.lt_of_lt_of_le hpb
              ((chunkWF_bounds c' (logWFb_all (c' :: t) hwfrest c' (by simp)) r hr).1)
          · have h1 : b.info.cmax < c'.info.cmin := chunks_head_lt b t hwfrest c' hc'
            have h2 : b.info.cmin ≤ b.info.cmax :=
              chunkWF_min_le_max b (logWFb_all (b :: t) hwfrest b (by simp))
            have h3 := (chunkWF_bounds c'
              (logWFb_all (b :: t) hwfrest c' (List.mem_cons_of_mem b hc')) r hr).1
            omega

/-- Helper: positioning an ascending cursor on a sorted record list at
a present start ID yields that record first. -/
theorem dropWhile_asc_head (l : List Rec) (sid : Nat) (hs : recsSortedB l = true)
    (hin : ∃ r ∈ l, r.rid = sid) :
    ∃ r0 t, l.dropWhile (fun r => r.rid < sid) = r0 :: t ∧ r0.rid = sid := by
  induction l with
  | nil => rcases hin with ⟨r, hr, _⟩; cases hr
  | cons a rest ih =>
    by_cases ha : a.rid < sid
    · rw [List.dropWhile_cons_of_pos (by simpa using ha)]
      refine ih (recsSortedB_tail a rest hs) ?_
      rcases hin with ⟨r, hr, hrid⟩
      rcases List.mem_cons.mp hr with rfl | hr
      · omega
      · exact ⟨r, hr, hrid⟩
    · rw [List.dropWhile_cons_of_neg (by simpa using ha)]
      refine ⟨a, rest, rfl, ?_⟩
      rcases hin with ⟨r, hr, hrid⟩
      rcases List.mem_cons.mp hr with rfl | hr
      · exact hrid
      · have := recsSortedB_head_lt a rest hs r hr
        omega

/-- Helper: positioning a descending cursor (reversed traversal) on a
sorted record list at a present start ID yields that record first. -/
theorem dropWhile_desc_head (l : List Rec) (sid : Nat) (hs : recsSortedB l = true)
    (hin : ∃ r ∈ l, r.rid = sid) :
    ∃ r0 t, l.reverse.dropWhile (fun r => sid < r.rid) = r0 :: t ∧ r0.rid = sid := by
  induction l with
  | nil => rcases hin with ⟨r, hr, _⟩; cases hr
  | cons a rest ih =>
    rw [List.reverse_cons, List.dropWhile_append]
    by_cases hr : ∃ r ∈ rest, r.rid = sid
    · rcases ih (recsSortedB_tail a rest hs) hr with ⟨r0, t, hdw, hr0⟩
      rw [hdw]
      simp only [List.isEmpty_cons, if_false, ite_false, Bool.false_eq_true]
      exact ⟨r0, t ++ [a], rfl, hr0⟩
    · have hasid : a.rid = sid := by
        rcases hin with ⟨r, hrm, hrid⟩
        rcases List.mem_cons.mp hrm with rfl | hrm
        · exact hrid
        · exact absurd ⟨r, hrm, hrid⟩ hr
      have hall : rest.reverse.dropWhile (fun r => sid < r.rid) = [] := by
        rw [List.dropWhile_eq_nil_iff]
        intro x hx
        have hxr : x ∈ rest := List.mem_reverse.mp hx
        have := recsSortedB_head_lt a rest hs x hxr
        simp only [decide_eq_true_eq]
        omega
      rw [hall]
      simp only [List.isEmpty_nil, if_true, ite_true]
      rw [List.dropWhile_cons_of_neg (by simp [hasid])]
      exact ⟨a, [], rfl, hasid⟩

/-- Helper: when the start ID is present in the log, the ascending
search index is in range and the boundary chunk contains the start
record. -/
theorem locate_asc_mem (chunks : List Chunk) (sid : Nat) (hwf : logWFb chunks = true)
    (hin : ∃ r ∈ allRecs chunks, r.rid = sid) :
    List.findIdx (fun c => sid ≤ c.info.cmax) chunks < chunks.length ∧
    ∃ r ∈ (chunks.getD (List.findIdx (fun c => sid ≤ c.info.cmax) chunks)
      defaultChunk).recs, r.rid = sid := by
  rcases hin with ⟨r0, hr0, hrid⟩
  rcases List.mem_flatMap.mp hr0 with ⟨c0, hc0, hr0c⟩
  have hk : List.findIdx (fun c => sid ≤ c.info.cmax) chunks < chunks.length := by
    have hex : ∃ c ∈ chunks, (fun c => decide (sid ≤ c.info.cmax)) c = true := by
      refine ⟨c0, hc0, ?_⟩
      have := (chunkWF_bounds c0 (logWFb_all chunks hwf c0 hc0) r0 hr0c).2
      simp only [decide_eq_true_eq]
      omega
    exact List.findIdx_lt_length_of_exists hex
  refine ⟨hk, ?_⟩
  rcases locate_asc chunks sid hwf hk with ⟨htake, hdrop, _⟩
  set k := List.findIdx (fun c => sid ≤ c.info.cmax) chunks with hkdef
  have hsplit : chunks = chunks.take k ++ chunks.drop k := (List.take_append_drop k chunks).symm
  have hdropeq : chunks.drop k = chunks.getD k defaultChunk :: chunks.drop (k + 1) := by
    rw [List.getD_eq_getElem chunks defaultChunk hk]
    exact List.drop_eq_getElem_cons hk
  rcases List.mem_append.mp (by rw [← hsplit]; exact hc0) with hmem | hmem
  · exact absurd hrid (by have := htake c0 hmem r0 hr0c; omega)
  · rw [hdropeq] at hmem
    rcases List.mem_cons.mp hmem with rfl | hmem
    · exact ⟨r0, hr0c, hrid⟩
    · exact absurd hrid (by have := hdrop c0 hmem r0 hr0c; omega)

/-- Helper: when the start ID is present in the log, the descending
search lands in range and the boundary chunk (one before the first
chunk whose Min exceeds the start ID) contains the start record. -/
theorem locate_desc_mem (chunks : List Chunk) (sid : Nat) (hwf : logWFb chunks = true)
    (hin : ∃ r ∈ allRecs chunks, r.rid = sid) :
    1 ≤ List.findIdx (fun c => sid < c.info.cmin) chunks ∧
    List.findIdx (fun c => sid < c.info.cmin) chunks - 1 < chunks.length ∧
    ∃ r ∈ (chunks.getD (List.findIdx (fun c => sid < c.info.cmin) chunks - 1)
      defaultChunk).recs, r.rid = sid := by
  rcases hin with ⟨r0, hr0, hrid⟩
  rcases List.mem_flatMap.mp hr0 with ⟨c0, hc0, hr0c⟩
  have hj : 1 ≤ List.findIdx (fun c => sid < c.info.cmin) chunks := by
    by_contra hnj
    have hj0 : List.findIdx (fun c => sid < c.info.cmin) chunks = 0 := by omega
    cases chunks with
    | nil => cases hc0
    | cons c rest =>
      have hpc : sid < c.info.cmin := by
        by_contra hnc
        simp [List.findIdx_cons, hnc] at hj0
      rcases List.mem_cons.mp hc0 with rfl | hc0
      · have := (chunkWF_bounds c0 (logWFb_all (c0 :: rest) hwf c0 (by simp)) r0 hr0c).1
        omega
      · have habove : c.info.cmax < r0.rid :=
          rest_records_above c rest hwf r0 (List.mem_flatMap.mpr ⟨c0, hc0, hr0c⟩)
        have := chunkWF_min_le_max c (logWFb_all (c :: rest) hwf c (by simp))
        omega
  rcases locate_desc chunks sid hwf hj with ⟨htake, hdrop, hmin, hlen⟩
  refine ⟨hj, hlen, ?_⟩
  set j := List.findIdx (fun c => sid < c.info.cmin) chunks with hjdef
  have hsplit : chunks = chunks.take (j - 1) ++ chunks.drop (j - 1) :=
    (List.take_append_drop (j - 1) chunks).symm
  have hdropeq : chunks.drop (j - 1)
      = chunks.getD (j - 1) defaultChunk :: chunks.drop (j - 1 + 1) := by
    rw [List.getD_eq_getElem chunks defaultChunk hlen]
    exact List.drop_eq_getElem_cons hlen
  have hj1 : j - 1 + 1 = j := by omega
  rcases List.mem_append.mp (by rw [← hsplit]; exact hc0) with hmem | hmem
  · exact absurd hrid (by have := htake c0 hmem r0 hr0c; omega)
  · rw [hdropeq] at hmem
    rcases List.mem_cons.mp hmem with rfl | hmem
    · exact ⟨r0, hr0c, hrid⟩
    · rw [hj1] at hmem
      exact absurd hrid (by have := hdrop c0 hmem r0 hr0c; omega)

/-- Helper: the records of a well-formed chunk are sorted. -/
theorem chunkWF_sorted (c : Chunk) (h : chunkWFb c = true) : recsSortedB c.recs = true := by
  simp only [chunkWFb, Bool.and_eq_true] at h
  exact h.1.1.1.2

/-- Helper: when the first chunk the query loop touches yields a
nonempty positioned record sequence, the first record of that sequence
is the first record of the whole query result. -/
theorem qLoop_head (cfg : Config) (chunks : List Chunk) (descending : Bool) (limit : Nat)
    (idx : Int) (sid : Option Nat) (r0 : Rec) (t0 : List Rec)
    (h1 : 0 ≤ idx) (h2 : idx < (chunks.length : Int)) (h3 : 0 < limit)
    (hmb : 0 < cfg.maxBunchSize)
    (hread : applyStart descending sid
      (chunkSeq (chunks.getD idx.toNat defaultChunk) descending) = r0 :: t0) :
    ∃ t, (qLoop cfg chunks descending limit idx sid 0 []).1 = r0 :: t := by
  have hguard : 0 ≤ idx ∧ idx < (chunks.length : Int) ∧ ([] : List Rec).length < limit := by
    exact ⟨h1, h2, by simpa using h3⟩
  rw [qLoop, dif_pos hguard]
  have hstep : readRecords cfg (chunks.getD idx.toNat defaultChunk) descending sid
      (limit - ([] : List Rec).length) 0
      = takeRecs cfg.maxBunchSize limit (r0 :: t0) 0 := by
    rw [readRecords, hread]
    simp
  simp only [hstep]
  have htake : takeRecs cfg.maxBunchSize limit (r0 :: t0) 0
      = (r0 :: (takeRecs cfg.maxBunchSize (limit - 1) t0 (0 + r0.psize)).1,
         (takeRecs cfg.maxBunchSize (limit - 1) t0 (0 + r0.psize)).2) := by
    simp only [takeRecs]
    rw [if_pos ⟨h3, hmb⟩]
  rw [htake]
  rcases qLoop_spec cfg chunks descending limit (idx + (if descending then -1 else 1)) none
      (takeRecs cfg.maxBunchSize (limit - 1) t0 (0 + r0.psize)).2
      ([] ++ (r0 :: (takeRecs cfg.maxBunchSize (limit - 1) t0 (0 + r0.psize)).1))
    with ⟨extra, hout, -⟩
  rw [hout]
  exact ⟨(takeRecs cfg.maxBunchSize (limit - 1) t0 (0 + r0.psize)).1 ++ extra, by simp⟩

/-- C9: for every QueryRecords call whose startID equals the ID of an
existing record of a well-formed log (and whose effective limit and
byte budget admit at least one record), that record is returned first,
in both the ascending and the descending direction: the start boundary
is inclusive. -/
theorem C9_query_start_inclusive (cfg : Config) (chunks : List Chunk) (sid : Nat)
    (descending : Bool) (limit0 : Nat)
    (hwf : logWFb chunks = true)
    (hin : ∃ r ∈ allRecs chunks, r.rid = sid)
    (hlim : 1 ≤ min limit0 cfg.maxRecordsLimit)
    (hmb : 1 ≤ cfg.maxBunchSize) :
    ∃ r0 t, (QueryRecords cfg chunks (some sid) descending limit0).1 = r0 :: t ∧
      r0.rid = sid := by
  have hne : chunks ≠ [] := by
    rcases hin with ⟨r, hr, _⟩
    intro h
    subst h
    simp [allRecs] at hr
  have hemp' : chunks.isEmpty = false := by
    cases chunks with
    | nil => exact absurd rfl hne
    | cons a t => rfl
  unfold QueryRecords
  rw [hemp']
  simp only [Bool.false_eq_true, if_false, ite_false]
  by_cases hd : descending = true
  · rw [hd]
    simp only [if_true, ite_true]
    rcases locate_desc_mem chunks sid hwf hin with ⟨hj, hlen, hbmem⟩
    have hbc_mem : chunks.getD (List.findIdx (fun c => sid < c.info.cmin) chunks - 1)
        defaultChunk ∈ chunks := by
      rw [List.getD_eq_getElem chunks defaultChunk hlen]
      exact List.getElem_mem _
    have hsort := chunkWF_sorted _ (logWFb_all chunks hwf _ hbc_mem)
    rcases dropWhile_desc_head _ sid hsort hbmem with ⟨r0, t0, hdw, hr0⟩
    have htoNat : ((List.findIdx (fun c => sid < c.info.cmin) chunks : Int) - 1).toNat
        = List.findIdx (fun c => sid < c.info.cmin) chunks - 1 := by omega
    rcases qLoop_head cfg chunks true (min limit0 cfg.maxRecordsLimit)
        ((List.findIdx (fun c => sid < c.info.cmin) chunks : Int) - 1) (some sid) r0 t0
        (by omega) (by omega) (by omega) (by omega)
        (by rw [htoNat]; simpa [applyStart, chunkSeq] using hdw)
      with ⟨t, hq⟩
    exact ⟨r0, t, hq, hr0⟩
  · have hd' : descending = false := by
      cases descending with
      | true => exact absurd rfl hd
      | false => rfl
    rw [hd']
    simp only [Bool.false_eq_true, if_false, ite_false]
    rcases locate_asc_mem chunks sid hwf hin with ⟨hk, hbmem⟩
    have hbc_mem : chunks.getD (List.findIdx (fun c => sid ≤ c.info.cmax) chunks)
        defaultChunk ∈ chunks := by
      rw [List.getD_eq_getElem chunks defaultChunk hk]
      exact List.getElem_mem _
    have hsort := chunkWF_sorted _ (logWFb_all chunks hwf _ hbc_mem)
    rcases dropWhile_asc_head _ sid hsort hbmem with ⟨r0, t0, hdw, hr0⟩
    have htoNat : ((List.findIdx (fun c => sid ≤ c.info.cmax) chunks : Int)).toNat
        = List.findIdx (fun c => sid ≤ c.info.cmax) chunks := by omega
    rcases qLoop_head cfg chunks false (min limit0 cfg.maxRecordsLimit)
        ((List.findIdx (fun c => sid ≤ c.info.cmax) chunks : Int)) (some sid) r0 t0
        (by omega) (by omega) (by omega) (by omega)
        (by rw [htoNat]; simpa [applyStart, chunkSeq] using hdw)
      with ⟨t, hq⟩
    exact ⟨r0, t, hq, hr0⟩

/-- C9 (witness): on the concrete two-chunk log, querying from the
existing record ID 3 returns that record first in both directions. -/
theorem C9_query_start_inclusive_witness :
    (∃ r0 t, (QueryRecords qcfg qlog2 (some 3) false 100).1 = r0 :: t ∧ r0.rid = 3) ∧
    (∃ r0 t, (QueryRecords qcfg qlog2 (some 3) true 100).1 = r0 :: t ∧ r0.rid = 3) := by
  constructor
  · exact C9_query_start_inclusive qcfg qlog2 3 false 100 (by decide)
      ⟨⟨3, 10⟩, by decide, rfl⟩ (by decide) (by decide)
  · exact C9_query_start_inclusive qcfg qlog2 3 true 100 (by decide)
      ⟨⟨3, 10⟩, by decide, rfl⟩ (by decide) (by decide)

/-- Helper: a well-formed chunk descriptor counts exactly the records
stored in the chunk. -/
theorem chunkWF_count (c : Chunk) (h : chunkWFb c = true) :
    c.info.recordsCount = c.recs.length := by
  simp only [chunkWFb, Bool.and_eq_true, decide_eq_true_eq] at h
  exact h.2

/-- Helper: allRecs distributes over append. -/
theorem allRecs_append (a b : List Chunk) : allRecs (a ++ b) = allRecs a ++ allRecs b := by
  simp [allRecs]

/-- Helper: allRecs of a cons. -/
theorem allRecs_cons (c : Chunk) (t : List Chunk) : allRecs (c :: t) = c.recs ++ allRecs t := by
  simp [allRecs]

/-- Helper: sumCounts distributes over append. -/
theorem sumCounts_append (a b : List Chunk) :
    sumCounts (a ++ b) = sumCounts a + sumCounts b := by
  simp [sumCounts]

/-- Helper: the catalog record counts of well-formed chunks sum to the
number of stored records. -/
theorem sumCounts_eq_length (chunks : List Chunk) (h : ∀ c ∈ chunks, chunkWFb c = true) :
    sumCounts chunks = (allRecs chunks).length := by
  induction chunks with
  | nil => simp [sumCounts, allRecs]
  | cons c t ih =>
    rw [allRecs_cons]
    simp only [sumCounts, List.map_cons, List.sum_cons, List.length_append]
    rw [chunkWF_count c (h c (by simp))]
    have := ih (fun x hx => h x (List.mem_cons_of_mem c hx))
    simp only [sumCounts] at this
    omega

/-- Helper: an ascending cursor positioned at a start ID retains
exactly the records at or above it (sorted chunk). -/
theorem dropWhile_eq_filter_asc (l : List Rec) (sid : Nat) (hs : recsSortedB l = true) :
    l.dropWhile (fun r => r.rid < sid) = l.filter (fun r => sid ≤ r.rid) := by
  induction l with
  | nil => rfl
  | cons a t ih =>
    by_cases ha : a.rid < sid
    · rw [List.dropWhile_cons_of_pos (by simpa using ha),
        List.filter_cons_of_neg (by simpa using ha)]
      exact ih (recsSortedB_tail a t hs)
    · rw [List.dropWhile_cons_of_neg (by simpa using ha),
        List.filter_cons_of_pos (by simpa using ha)]
      congr 1
      symm
      rw [List.filter_eq_self]
      intro r hr
      have := recsSortedB_head_lt a t hs r hr
      simp only [decide_eq_true_eq]
      omega

/-- Helper: a descending cursor positioned at a start ID retains
exactly the records at or below it (sorted chunk, reversed
traversal). -/
theorem dropWhile_eq_filter_desc (l : List Rec) (sid : Nat) (hs : recsSortedB l = true) :
    l.reverse.dropWhile (fun r => sid < r.rid) = l.reverse.filter (fun r => r.rid ≤ sid) := by
  induction l with
  | nil => rfl
  | cons a t ih =>
    rw [List.reverse_cons, List.dropWhile_append, List.filter_append]
    by_cases hall : ∀ r ∈ t, sid < r.rid
    · have hdw : t.reverse.dropWhile (fun r => sid < r.rid) = [] := by
        rw [List.dropWhile_eq_nil_iff]
        intro x hx
        simp only [decide_eq_true_eq]
        exact hall x (List.mem_reverse.mp hx)
      have hfil : t.reverse.filter (fun r => r.rid ≤ sid) = [] := by
        rw [List.filter_eq_nil_iff]
        intro x hx
        have := hall x (List.mem_reverse.mp hx)
        simp only [decide_eq_true_eq]
        omega
      rw [hdw, hfil]
      simp only [List.isEmpty_nil, if_true, ite_true, List.nil_append]
      by_cases hc : sid < a.rid
      · rw [List.dropWhile_cons_of_pos (by simpa using hc),
          List.filter_cons_of_neg (by simp; omega)]
        rfl
      · rw [List.dropWhile_cons_of_neg (by simpa using hc),
          List.filter_cons_of_pos (by simp; omega)]
        simp
    · push_neg at hall
      rcases hall with ⟨w, hw, hwle⟩
      have hne : t.reverse.filter (fun r => r.rid ≤ sid) ≠ [] := by
        intro hnil
        rw [List.filter_eq_nil_iff] at hnil
        exact absurd (by simpa using hwle) (hnil w (List.mem_reverse.mpr hw))
      have ihh := ih (recsSortedB_tail a t hs)
      rw [ihh]
      have hempty : (t.reverse.filter (fun r => r.rid ≤ sid)).isEmpty = false := by
        cases hfe : t.reverse.filter (fun r => r.rid ≤ sid) with
        | nil => exact absurd hfe hne
        | cons x xs => rfl
      rw [hempty]
      simp only [Bool.false_eq_true, if_false, ite_false]
      congr 1
      have hale : a.rid ≤ sid := by
        have := recsSortedB_head_lt a t hs w hw
        omega
      rw [List.filter_cons_of_pos (by simpa using hale)]
      rfl

/-- Helper: the exact ascending boundary scan counts the records at or
above the start ID. -/
theorem scanChunk_asc (c : Chunk) (sid : Nat) (hwf : chunkWFb c = true) :
    scanChunk c false sid = .ok (c.recs.countP (fun r => sid ≤ r.rid)) := by
  unfold scanChunk
  simp only [chunkSeq, applyStart, Bool.false_eq_true, if_false, ite_false]
  rw [dropWhile_eq_filter_asc c.recs sid (chunkWF_sorted c hwf), List.countP_eq_length_filter]

/-- Helper: the exact descending boundary scan counts the records at
or below the start ID. -/
theorem scanChunk_desc (c : Chunk) (sid : Nat) (hwf : chunkWFb c = true) :
    scanChunk c true sid = .ok (c.recs.countP (fun r => r.rid ≤ sid)) := by
  unfold scanChunk
  simp only [chunkSeq, applyStart, if_true, ite_true]
  rw [dropWhile_eq_filter_desc c.recs sid (chunkWF_sorted c hwf), List.filter_reverse,
    List.length_reverse, List.countP_eq_length_filter]

/-- C6 (counterexample): for a start ID beyond the whole log the call
succeeds with `(total, count) = (0, 0)`, although the log holds one
record — the returned total is not the number of all records in the
log unconditionally, as the claim states. -/
theorem C6_counterexample :
    CountRecords scanChunk qlog1 (some 5) false = .ok (0, 0) ∧
    (allRecs qlog1).length = 1 := ⟨rfl, rfl⟩

/-- C6 (amended): every CountRecords call on a well-formed log
succeeds with `count ≤ total`; with no start ID both equal the number
of all records; with a start ID whose boundary search lands inside the
log (some chunk Max at or above it ascending, some chunk Min at or
below it descending), total is the number of all records and count is
the number of records on/after (ascending) or on/before (descending)
the start position; when the start ID lies beyond the log in the scan
direction, both values are 0. -/
theorem C6_amended (chunks : List Chunk) (startID : Option Nat) (descending : Bool)
    (hwf : logWFb chunks = true) :
    ∃ t c, CountRecords scanChunk chunks startID descending = .ok (t, c) ∧
      c ≤ t ∧
      (startID = none → t = (allRecs chunks).length ∧ c = (allRecs chunks).length) ∧
      (∀ sid, startID = some sid → descending = false →
        (∃ ch ∈ chunks, sid ≤ ch.info.cmax) →
        t = (allRecs chunks).length ∧
        c = (allRecs chunks).countP (fun r => sid ≤ r.rid)) ∧
      (∀ sid, startID = some sid → descending = true →
        (∃ ch ∈ chunks, ch.info.cmin ≤ sid) →
        t = (allRecs chunks).length ∧
        c = (allRecs chunks).countP (fun r => r.rid ≤ sid)) := by
  by_cases hempty : chunks.isEmpty
  · have hnil : chunks = [] := List.isEmpty_iff.mp hempty
    subst hnil
    refine ⟨0, 0, by unfold CountRecords; rfl, Nat.le_refl 0, ?_, ?_, ?_⟩
    · intro _; simp [allRecs]
    · rintro sid _ _ ⟨ch, hch, -⟩; cases hch
    · rintro sid _ _ ⟨ch, hch, -⟩; cases hch
  · have hemp' : chunks.isEmpty = false := by
      revert hempty; cases chunks.isEmpty <;> simp
    cases startID with
    | none =>
      have hred : CountRecords scanChunk chunks none descending
          = .ok (sumCounts chunks, sumCounts chunks) := by
        unfold CountRecords
        rw [hemp']
        simp
      have hlen := sumCounts_eq_length chunks (logWFb_all chunks hwf)
      refine ⟨_, _, hred, Nat.le_refl _, ?_, ?_, ?_⟩
      · intro _; exact ⟨hlen, hlen⟩
      · intro sid h; cases h
      · intro sid h; cases h
    | some sid =>
      cases descending with
      | false =>
        by_cases hkr : List.findIdx (fun c => sid ≤ c.info.cmax) chunks < chunks.length
        · -- boundary search in range
          have hbc_mem : chunks.getD (List.findIdx (fun c => sid ≤ c.info.cmax) chunks)
              defaultChunk ∈ chunks := by
            rw [List.getD_eq_getElem chunks defaultChunk hkr]
            exact List.getElem_mem _
          have hwfbc := logWFb_all chunks hwf _ hbc_mem
          have hred : CountRecords scanChunk chunks (some sid) false
              = .ok ((chunks.getD (List.findIdx (fun c => sid ≤ c.info.cmax) chunks)
                        defaultChunk).info.recordsCount
                      + sumCounts (chunks.take (List.findIdx (fun c => sid ≤ c.info.cmax) chunks))
                      + sumCounts (chunks.drop (List.findIdx (fun c => sid ≤ c.info.cmax) chunks + 1)),
                     (chunks.getD (List.findIdx (fun c => sid ≤ c.info.cmax) chunks)
                        defaultChunk).recs.countP (fun r => sid ≤ r.rid)
                      + sumCounts (chunks.drop (List.findIdx (fun c => sid ≤ c.info.cmax) chunks + 1))) := by
            unfold CountRecords
            rw [hemp']
            simp only [Bool.false_eq_true, if_false, ite_false]
            rw [if_pos (⟨by omega, by exact_mod_cast hkr⟩ :
              (0:Int) ≤ (List.findIdx (fun c => sid ≤ c.info.cmax) chunks : Int) ∧
              ((List.findIdx (fun c => sid ≤ c.info.cmax) chunks : Int) < (chunks.length : Int)))]
            simp only [Int.toNat_natCast]
            rw [scanChunk_asc _ sid hwfbc]
          have hdecomp : chunks
              = chunks.take (List.findIdx (fun c => sid ≤ c.info.cmax) chunks)
                ++ (chunks.getD (List.findIdx (fun c => sid ≤ c.info.cmax) chunks) defaultChunk)
                :: chunks.drop (List.findIdx (fun c => sid ≤ c.info.cmax) chunks + 1) := by
            conv_lhs => rw [← List.take_append_drop
              (List.findIdx (fun c => sid ≤ c.info.cmax) chunks) chunks]
            congr 1
            rw [List.getD_eq_getElem chunks defaultChunk hkr]
            exact List.drop_eq_getElem_cons hkr
          have hsum : sumCounts chunks
              = sumCounts (chunks.take (List.findIdx (fun c => sid ≤ c.info.cmax) chunks))
                + ((chunks.getD (List.findIdx (fun c => sid ≤ c.info.cmax) chunks)
                    defaultChunk).info.recordsCount
                  + sumCounts (chunks.drop (List.findIdx (fun c => sid ≤ c.info.cmax) chunks + 1))) := by
            conv_lhs => rw [hdecomp]
            rw [sumCounts_append]
            simp [sumCounts]
          have hlen := sumCounts_eq_length chunks (logWFb_all chunks hwf)
          have hcnt := chunkWF_count _ hwfbc
          have hcple := List.countP_le_length
            (p := fun r => decide (sid ≤ r.rid))
            (l := (chunks.getD (List.findIdx (fun c => sid ≤ c.info.cmax) chunks) defaultChunk).recs)
          refine ⟨_, _, hred, by omega, ?_, ?_, ?_⟩
          · intro h; cases h
          · intro sid' hs _ _
            injection hs with hs'
            subst hs'
            rcases locate_asc chunks sid hwf hkr with ⟨htake, hdrop, -⟩
            constructor
            · omega
            · have hall : allRecs chunks
                  = allRecs (chunks.take (List.findIdx (fun c => sid ≤ c.info.cmax) chunks))
                    ++ ((chunks.getD (List.findIdx (fun c => sid ≤ c.info.cmax) chunks)
                        defaultChunk).recs
                      ++ allRecs (chunks.drop
                          (List.findIdx (fun c => sid ≤ c.info.cmax) chunks + 1))) := by
                conv_lhs => rw [hdecomp]
                rw [allRecs_append, allRecs_cons]
              rw [hall, List.countP_append, List.countP_append]
              have hz : (allRecs (chunks.take
                  (List.findIdx (fun c => sid ≤ c.info.cmax) chunks))).countP
                    (fun r => sid ≤ r.rid) = 0 := by
                rw [List.countP_eq_zero]
                intro r hr
                rcases List.mem_flatMap.mp hr with ⟨c', hc', hrc⟩
                have := htake c' hc' r hrc
                simp only [decide_eq_true_eq]
                omega
              have hfull : (allRecs (chunks.drop
                  (List.findIdx (fun c => sid ≤ c.info.cmax) chunks + 1))).countP
                    (fun r => sid ≤ r.rid)
                  = (allRecs (chunks.drop
                      (List.findIdx (fun c => sid ≤ c.info.cmax) chunks + 1))).length := by
                rw [List.countP_eq_length]
                intro r hr
                rcases List.mem_flatMap.mp hr with ⟨c', hc', hrc⟩
                have := hdrop c' hc' r hrc
                simp only [decide_eq_true_eq]
                omega
              have hlensub : sumCounts (chunks.drop
                  (List.findIdx (fun c => sid ≤ c.info.cmax) chunks + 1))
                  = (allRecs (chunks.drop
                      (List.findIdx (fun c => sid ≤ c.info.cmax) chunks + 1))).length :=
                sumCounts_eq_length _
                  (fun c hc => logWFb_all chunks hwf c (List.mem_of_mem_drop hc))
              omega
          · intro sid' _ h; cases h
        · -- boundary search out of range: the call returns (0, 0)
          have hred : CountRecords scanChunk chunks (some sid) false = .ok (0, 0) := by
            unfold CountRecords
            rw [hemp']
            simp only [Bool.false_eq_true, if_false, ite_false]
            rw [if_neg]
            rintro ⟨-, h2⟩
            have : List.findIdx (fun c => sid ≤ c.info.cmax) chunks < chunks.length := by
              exact_mod_cast h2
            omega
          refine ⟨0, 0, hred, Nat.le_refl 0, ?_, ?_, ?_⟩
          · intro h; cases h
          · rintro sid' hs _ ⟨ch, hch, hchle⟩
            injection hs with hs'
            subst hs'
            exact absurd (List.findIdx_lt_length_of_exists
              ⟨ch, hch, by simpa using hchle⟩) hkr
          · intro sid' _ h; cases h
      | true =>
        by_cases hj : 1 ≤ List.findIdx (fun c => sid < c.info.cmin) chunks
        · rcases locate_desc chunks sid hwf hj with ⟨htake, hdrop, hminle, hlenb⟩
          have hbc_mem : chunks.getD (List.findIdx (fun c => sid < c.info.cmin) chunks - 1)
              defaultChunk ∈ chunks := by
            rw [List.getD_eq_getElem chunks defaultChunk hlenb]
            exact List.getElem_mem _
          have hwfbc := logWFb_all chunks hwf _ hbc_mem
          have hred : CountRecords scanChunk chunks (some sid) true
              = .ok ((chunks.getD (List.findIdx (fun c => sid < c.info.cmin) chunks - 1)
                        defaultChunk).info.recordsCount
                      + sumCounts (chunks.drop
                          (List.findIdx (fun c => sid < c.info.cmin) chunks - 1 + 1))
                      + sumCounts (chunks.take
                          (List.findIdx (fun c => sid < c.info.cmin) chunks - 1)),
                     (chunks.getD (List.findIdx (fun c => sid < c.info.cmin) chunks - 1)
                        defaultChunk).recs.countP (fun r => r.rid ≤ sid)
                      + sumCounts (chunks.take
                          (List.findIdx (fun c => sid < c.info.cmin) chunks - 1))) := by
            unfold CountRecords
            rw [hemp']
            simp only [Bool.false_eq_true, if_false, ite_false, if_true, ite_true]
            rw [if_pos (⟨by omega, by omega⟩ :
              (0:Int) ≤ ((List.findIdx (fun c => sid < c.info.cmin) chunks : Int) - 1) ∧
              (((List.findIdx (fun c => sid < c.info.cmin) chunks : Int) - 1)
                < (chunks.length : Int)))]
            rw [show ((List.findIdx (fun c => sid < c.info.cmin) chunks : Int) - 1).toNat
                = List.findIdx (fun c => sid < c.info.cmin) chunks - 1 from by omega]
            rw [scanChunk_desc _ sid hwfbc]
          have hdecomp : chunks
              = chunks.take (List.findIdx (fun c => sid < c.info.cmin) chunks - 1)
                ++ (chunks.getD (List.findIdx (fun c => sid < c.info.cmin) chunks - 1)
                    defaultChunk)
                :: chunks.drop (List.findIdx (fun c => sid < c.info.cmin) chunks - 1 + 1) := by
            conv_lhs => rw [← List.take_append_drop
              (List.findIdx (fun c => sid < c.info.cmin) chunks - 1) chunks]
            congr 1
            rw [List.getD_eq_getElem chunks defaultChunk hlenb]
            exact List.drop_eq_getElem_cons hlenb
          have hsum : sumCounts chunks
              = sumCounts (chunks.take (List.findIdx (fun c => sid < c.info.cmin) chunks - 1))
                + ((chunks.getD (List.findIdx (fun c => sid < c.info.cmin) chunks - 1)
                    defaultChunk).info.recordsCount
                  + sumCounts (chunks.drop
                      (List.findIdx (fun c => sid < c.info.cmin) chunks - 1 + 1))) := by
            conv_lhs => rw [hdecomp]
            rw [sumCounts_append]
            simp [sumCounts]
          have hlen := sumCounts_eq_length chunks (logWFb_all chunks hwf)
          have hcnt := chunkWF_count _ hwfbc
          have hcple := List.countP_le_length
            (p := fun r => decide (r.rid ≤ sid))
            (l := (chunks.getD (List.findIdx (fun c => sid < c.info.cmin) chunks - 1)
              defaultChunk).recs)
          refine ⟨_, _, hred, by omega, ?_, ?_, ?_⟩
          · intro h; cases h
          · intro sid' _ h; cases h
          · intro sid' hs _ _
            injection hs with hs'
            subst hs'
            constructor
            · omega
            · have hall : allRecs chunks
                  = allRecs (chunks.take (List.findIdx (fun c => sid < c.info.cmin) chunks - 1))
                    ++ ((chunks.getD (List.findIdx (fun c => sid < c.info.cmin) chunks - 1)
                        defaultChunk).recs
                      ++ allRecs (chunks.drop
                          (List.findIdx (fun c => sid < c.info.cmin) chunks - 1 + 1))) := by
                conv_lhs => rw [hdecomp]
                rw [allRecs_append, allRecs_cons]
              rw [hall, List.countP_append, List.countP_append]
              have hj1 : List.findIdx (fun c => sid < c.info.cmin) chunks - 1 + 1
                  = List.findIdx (fun c => sid < c.info.cmin) chunks := by omega
              have hz : (allRecs (chunks.drop
                  (List.findIdx (fun c => sid < c.info.cmin) chunks - 1 + 1))).countP
                    (fun r => r.rid ≤ sid) = 0 := by
                rw [List.countP_eq_zero]
                intro r hr
                rcases List.mem_flatMap.mp hr with ⟨c', hc', hrc⟩
                rw [hj1] at hc'
                have := hdrop c' hc' r hrc
                simp only [decide_eq_true_eq]
                omega
              have hfull : (allRecs (chunks.take
                  (List.findIdx (fun c => sid < c.info.cmin) chunks - 1))).countP
                    (fun r => r.rid ≤ sid)
                  = (allRecs (chunks.take
                      (List.findIdx (fun c => sid < c.info.cmin) chunks - 1))).length := by
                rw [List.countP_eq_length]
                intro r hr
                rcases List.mem_flatMap.mp hr with ⟨c', hc', hrc⟩
                have := htake c' hc' r hrc
                simp only [decide_eq_true_eq]
                omega
              have hlensub : sumCounts (chunks.take
                  (List.findIdx (fun c => sid < c.info.cmin) chunks - 1))
                  = (allRecs (chunks.take
                      (List.findIdx (fun c => sid < c.info.cmin) chunks - 1))).length :=
                sumCounts_eq_length _
                  (fun c hc => logWFb_all chunks hwf c (List.mem_of_mem_take hc))
              omega
        · -- the descending search yields index -1: the call returns (0, 0)
          have hred : CountRecords scanChunk chunks (some sid) true = .ok (0, 0) := by
            unfold CountRecords
            rw [hemp']
            simp only [Bool.false_eq_true, if_false, ite_false, if_true, ite_true]
            rw [if_neg]
            rintro ⟨h1, -⟩
            omega
          refine ⟨0, 0, hred, Nat.le_refl 0, ?_, ?_, ?_⟩
          · intro h; cases h
          · intro sid' _ h; cases h
          · rintro sid' hs _ ⟨ch, hch, hchle⟩
            injection hs with hs'
            subst hs'
            exfalso
            refine hj ?_
            cases chunks with
            | nil => cases hch
            | cons c0 rest =>
              have hc0 : ¬(sid < c0.info.cmin) := by
                rcases List.mem_cons.mp hch with rfl | hmem
                · omega
                · have h1 : c0.info.cmax < ch.info.cmin := chunks_head_lt c0 rest hwf ch hmem
                  have h2 : c0.info.cmin ≤ c0.info.cmax :=
                    chunkWF_min_le_max c0 (logWFb_all _ hwf c0 (by simp))
                  omega
              simp [List.findIdx_cons, hc0]

/-- C6 (amended, witness): the amended statement instantiated at the
concrete two-chunk log. -/
theorem C6_amended_witness :
    ∃ t c, CountRecords scanChunk qlog2 (some 3) false = .ok (t, c) ∧
      c ≤ t ∧
      ((some 3 : Option Nat) = none → t = (allRecs qlog2).length ∧ c = (allRecs qlog2).length) ∧
      (∀ sid, (some 3 : Option Nat) = some sid → false = false →
        (∃ ch ∈ qlog2, sid ≤ ch.info.cmax) →
        t = (allRecs qlog2).length ∧
        c = (allRecs qlog2).countP (fun r => sid ≤ r.rid)) ∧
      (∀ sid, (some 3 : Option Nat) = some sid → false = true →
        (∃ ch ∈ qlog2, ch.info.cmin ≤ sid) →
        t = (allRecs qlog2).length ∧
        c = (allRecs qlog2).countP (fun r => r.rid ≤ sid)) :=
  C6_amended qlog2 (some 3) false (by decide)

/-- C10: for every CountRecords call whose startID lands on a boundary
chunk, a failure of the exact scan-count of that chunk makes the call
return `(0, 0)` with no error: with the always-failing scan oracle
every start-ID call returns `.ok (0, 0)`, never an error. -/
theorem C10_count_scan_error_swallowed (chunks : List Chunk) (sid : Nat) (desc : Bool) :
    CountRecords scanFail chunks (some sid) desc = .ok (0, 0) := by
  unfold CountRecords
  split
  · rfl
  · split
    · next heq => exact Option.noConfusion heq
    · next s heq =>
      split <;> (dsimp only; split <;> rfl)

end logfs

namespace cache

/-- Helper: membership in an insertByID result. -/
theorem mem_insertByID (x a : logfs.ChunkInfo) (l : List logfs.ChunkInfo) :
    a ∈ insertByID x l ↔ a = x ∨ a ∈ l := by
  induction l with
  | nil => simp [insertByID]
  | cons y ys ih =>
    by_cases h : x.cid ≤ y.cid
    · simp [insertByID, h]
    · simp only [insertByID, h, if_false, ite_false, List.mem_cons, ih]
      tauto

/-- Helper: membership in a sortByID result. -/
theorem mem_sortByID (a : logfs.ChunkInfo) (l : List logfs.ChunkInfo) :
    a ∈ sortByID l ↔ a ∈ l := by
  induction l with
  | nil => simp [sortByID]
  | cons y ys ih =>
    simp only [sortByID, List.foldr_cons, List.mem_cons]
    rw [show List.foldr insertByID [] ys = sortByID ys from rfl] at *
    rw [mem_insertByID, ih]

/-- Helper: insertByID never returns the empty list. -/
theorem insertByID_ne_nil (x : logfs.ChunkInfo) (l : List logfs.ChunkInfo) :
    insertByID x l ≠ [] := by
  cases l with
  | nil => simp [insertByID]
  | cons y ys =>
    by_cases h : x.cid ≤ y.cid <;> simp [insertByID, h]

/-- Helper: insertByID preserves sortedness by chunk ID. -/
theorem insertByID_sorted (x : logfs.ChunkInfo) (l : List logfs.ChunkInfo)
    (h : l.Pairwise fun a b => a.cid ≤ b.cid) :
    (insertByID x l).Pairwise fun a b => a.cid ≤ b.cid := by
  induction l with
  | nil => simp [insertByID]
  | cons y ys ih =>
    rcases List.pairwise_cons.mp h with ⟨hy, hys⟩
    by_cases hxy : x.cid ≤ y.cid
    · simp only [insertByID, hxy, if_true, ite_true]
      refine List.pairwise_cons.mpr ⟨?_, h⟩
      intro b hb
      rcases List.mem_cons.mp hb with rfl | hb
      · exact hxy
      · exact Nat.le_trans hxy (hy b hb)
    · simp only [insertByID, hxy, if_false, ite_false]
      refine List.pairwise_cons.mpr ⟨?_, ih hys⟩
      intro b hb
      rcases (mem_insertByID x b ys).mp hb with rfl | hb
      · omega
      · exact hy b hb

/-- Helper: sortByID produces a list sorted by ascending chunk ID. -/
theorem sortByID_sorted (l : List logfs.ChunkInfo) :
    (sortByID l).Pairwise fun a b => a.cid ≤ b.cid := by
  induction l with
  | nil => simp [sortByID]
  | cons y ys ih => exact insertByID_sorted y (sortByID ys) ih

/-- Helper: in a list sorted by ascending chunk ID every member is at
most the last element. -/
theorem sorted_le_getLastD (l : List logfs.ChunkInfo) (d : logfs.ChunkInfo)
    (hs : l.Pairwise fun a b => a.cid ≤ b.cid) (a : logfs.ChunkInfo) (ha : a ∈ l) :
    a.cid ≤ (l.getLastD d).cid := by
  induction l generalizing d with
  | nil => cases ha
  | cons y ys ih =>
    rcases List.pairwise_cons.mp hs with ⟨hy, hys⟩
    rw [List.getLastD_cons]
    rcases List.mem_cons.mp ha with rfl | h0
    · by_cases hys0 : ys = []
      · subst hys0; simp
      · exact hy _ (getLastD_mem ys a hys0)
    · exact ih y hys h0

/-- C8 (counterexample): for a log with no chunks,
CachedStorage.GetLastChunk returns the zero ChunkInfo with no error,
not a NotFound error. -/
theorem C8_counterexample :
    GetLastChunk (.ok []) = .ok ⟨0, 0, 0, 0⟩ := rfl

/-- C8 (amended): when the log has chunks, GetLastChunk returns the
ChunkInfo with the biggest chunk ID; when it has none, the zero
ChunkInfo is returned with no error (the NotFound error of the claim
is produced by other LogsMetaStorage implementations, not by
CachedStorage); an error of the underlying chunk load propagates. -/
theorem C8_amended (cis : List logfs.ChunkInfo) (h : cis ≠ []) :
    ∃ m, GetLastChunk (.ok cis) = .ok m ∧ m ∈ cis ∧ ∀ c ∈ cis, c.cid ≤ m.cid := by
  have hne : sortByID cis ≠ [] := by
    cases cis with
    | nil => exact absurd rfl h
    | cons y ys => exact insertByID_ne_nil y (sortByID ys)
  refine ⟨(sortByID cis).getLastD ⟨0, 0, 0, 0⟩, ?_, ?_, ?_⟩
  · unfold GetLastChunk
    simp [List.isEmpty_iff, hne]
  · exact (mem_sortByID _ cis).mp (getLastD_mem _ _ hne)
  · intro c hc
    exact sorted_le_getLastD (sortByID cis) _ (sortByID_sorted cis) c ((mem_sortByID c cis).mpr hc)

/-- C8 (amended, witness): the biggest-ID chunk of a concrete
three-chunk catalog answer. -/
theorem C8_amended_witness :
    ∃ m, GetLastChunk (.ok [⟨1, 0, 0, 2⟩, ⟨7, 0, 0, 3⟩, ⟨4, 0, 0, 1⟩]) = .ok m ∧
      m ∈ [(⟨1, 0, 0, 2⟩ : logfs.ChunkInfo), ⟨7, 0, 0, 3⟩, ⟨4, 0, 0, 1⟩] ∧
      ∀ c ∈ [(⟨1, 0, 0, 2⟩ : logfs.ChunkInfo), ⟨7, 0, 0, 3⟩, ⟨4, 0, 0, 1⟩], c.cid ≤ m.cid :=
  C8_amended [⟨1, 0, 0, 2⟩, ⟨7, 0, 0, 3⟩, ⟨4, 0, 0, 1⟩] (by simp)

end cache

end Solaris
